import Mathlib

/-!
Verification development for a circuit-analysis engine (Modified Nodal
Analysis).  The definitions below are a shallow embedding of the Python
sources:

* `models/circuit_components.py` — component value objects,
* `models/circuit_model.py`      — the circuit aggregate,
* `analysis_strategies.py`       — topology analysis (supernodes),
* `services/circuit_solver.py`   — the MNA numerical solver,
* `services/equation_builder.py` / `services/matrix_builder.py`
  — the secondary equation/matrix path,
* `app.py`                       — the netlist ingest of the HTTP entry point.

Machine floats are embedded as exact rationals (ℚ); numpy's `linalg.solve`
is embedded by its input/output contract on exact data: it fails exactly on
a singular matrix and otherwise returns the unique solution.  Python string
payloads that only carry fixed presentation text (error messages, type
tags) are embedded as inductive tags carrying the same information.
-/

namespace Tapece

/-! ### Component model (`models/circuit_components.py`)

`Component.__init__` stores a fresh unique id, a float value and the two
parsed terminal nodes.  The subclasses `Resistor`, `VoltageSource` and
`CurrentSource` add no data, so the class of a component is embedded as a
kind tag.  The uuid id is embedded as a natural number; uniqueness of the
ids in a circuit is stated as a hypothesis where a claim needs it. -/

inductive CompKind where
  | resistor
  | voltageSource
  | currentSource
deriving DecidableEq, Repr

structure Component where
  id : ℕ
  kind : CompKind
  value : ℚ
  node1 : ℕ
  node2 : ℕ
deriving DecidableEq, Repr

/-- `Component._parse_node`: `'GND'` (case-insensitive) maps to node `0`,
an integer token maps to its value, anything else raises `ValueError`.
The token is embedded after Python's `str(node).upper()` comparison. -/
inductive NodeToken where
  | num (n : ℕ)
  | gnd
  | malformed
deriving DecidableEq, Repr

def parse_node : NodeToken → Except Unit ℕ
  | .num n => .ok n
  | .gnd => .ok 0
  | .malformed => .error ()

/-! ### Circuit model (`models/circuit_model.py`)

`CircuitModel` keeps an insertion-ordered dict of components, a set of
nodes and the reference node (default 0).  The dict is embedded as the
insertion-ordered list of components. -/

structure CircuitModelState where
  components : List Component
  nodes : Finset ℕ
  referenceNode : ℕ
deriving DecidableEq

def emptyModel : CircuitModelState := ⟨[], ∅, 0⟩

/-- `CircuitModel.add_component`: unconditionally inserts the component and
adds both terminals to the node set.  There is no validation of any kind in
the source (in particular no self-loop check and no error path). -/
def add_component (m : CircuitModelState) (comp : Component) : CircuitModelState :=
  { m with
    components := m.components ++ [comp]
    nodes := m.nodes ∪ {comp.node1, comp.node2} }

/-- `CircuitModel.set_reference_node` with an integer argument: ensures the
node is in the node set and marks it as reference. -/
def set_reference_node (m : CircuitModelState) (n : ℕ) : CircuitModelState :=
  { m with nodes := insert n m.nodes, referenceNode := n }

/-! ### The solved circuit value

The analyzer and solver read the model only through its component list and
reference node; the node set of a well-formed model is derived from those
(every node in `CircuitModel.nodes` was put there by `add_component` or
`set_reference_node`).  `Circuit` packages exactly that data. -/

structure Circuit where
  components : List Component
  referenceNode : ℕ
deriving DecidableEq, Repr

def CircuitModelState.toCircuit (m : CircuitModelState) : Circuit :=
  ⟨m.components, m.referenceNode⟩

/-- The node set of the model: all terminals plus the reference node. -/
def Circuit.nodeList (c : Circuit) : List ℕ :=
  ((c.components.flatMap fun comp => [comp.node1, comp.node2]) ++ [c.referenceNode]).dedup

def Circuit.nodesFinset (c : Circuit) : Finset ℕ :=
  c.nodeList.toFinset

/-- `sorted([n for n in self.model.nodes if n != self.ref_node])`. -/
def Circuit.nonRefNodes (c : Circuit) : List ℕ :=
  List.insertionSort (· ≤ ·) (c.nodeList.filter fun n => n ≠ c.referenceNode)

def Circuit.resistors (c : Circuit) : List Component :=
  c.components.filter fun comp => comp.kind = .resistor

def Circuit.voltageSources (c : Circuit) : List Component :=
  c.components.filter fun comp => comp.kind = .voltageSource

def Circuit.currentSources (c : Circuit) : List Component :=
  c.components.filter fun comp => comp.kind = .currentSource

def Circuit.numNodes (c : Circuit) : ℕ := c.nonRefNodes.length

def Circuit.numVS (c : Circuit) : ℕ := c.voltageSources.length

/-- Side length of the MNA system. -/
def Circuit.size (c : Circuit) : ℕ := c.numNodes + c.numVS

/-- `self.node_to_index`: position of a non-reference node in the sorted
list of non-reference nodes. -/
def Circuit.nodeIndex (c : Circuit) (n : ℕ) : ℕ :=
  c.nonRefNodes.indexOf n

/-! ### MNA matrix assembly (`CircuitSolver._build_mna_system`)

numpy arrays mutated in place are embedded as total functions on ℕ updated
pointwise; all writes use indices below `c.size`, so restricting to
`Fin c.size` below loses nothing.  `+=` is `addEntry`, `=` is `setEntry`. -/

def MatF : Type := ℕ → ℕ → ℚ

def VecF : Type := ℕ → ℚ

def zerosM : MatF := fun _ _ => 0

def zerosV : VecF := fun _ => 0

def addEntry (g : MatF) (i j : ℕ) (v : ℚ) : MatF :=
  fun a b => if a = i ∧ b = j then g a b + v else g a b

def setEntry (g : MatF) (i j : ℕ) (v : ℚ) : MatF :=
  fun a b => if a = i ∧ b = j then v else g a b

def addVec (z : VecF) (i : ℕ) (v : ℚ) : VecF :=
  fun a => if a = i then z a + v else z a

def setVec (z : VecF) (i : ℕ) (v : ℚ) : VecF :=
  fun a => if a = i then v else z a

/-- The loop body of `CircuitSolver._stamp_conductances`, with the
source's three-way branch on which terminals are the reference node. -/
def conductance_step (c : Circuit) (G : MatF) (r : Component) : MatF :=
  let g := 1 / r.value
  if r.node1 ≠ c.referenceNode ∧ r.node2 ≠ c.referenceNode then
    let i := c.nodeIndex r.node1
    let j := c.nodeIndex r.node2
    addEntry (addEntry (addEntry (addEntry G i i g) j j g) i j (-g)) j i (-g)
  else if r.node1 ≠ c.referenceNode ∧ r.node2 = c.referenceNode then
    let i := c.nodeIndex r.node1
    addEntry G i i g
  else if r.node2 ≠ c.referenceNode ∧ r.node1 = c.referenceNode then
    let j := c.nodeIndex r.node2
    addEntry G j j g
  else G

/-- `CircuitSolver._stamp_conductances`, one resistor at a time. -/
def stamp_conductances (c : Circuit) (G0 : MatF) : MatF :=
  c.resistors.foldl (conductance_step c) G0

/-- The loop body of `CircuitSolver._stamp_current_sources`:
`Z[i] -= I` at node1, `Z[j] += I` at node2, skipping reference
terminals. -/
def current_step (c : Circuit) (Z : VecF) (cs : Component) : VecF :=
  let Z1 := if cs.node1 ≠ c.referenceNode then
      addVec Z (c.nodeIndex cs.node1) (-cs.value) else Z
  if cs.node2 ≠ c.referenceNode then
    addVec Z1 (c.nodeIndex cs.node2) cs.value else Z1

/-- `CircuitSolver._stamp_current_sources`. -/
def stamp_current_sources (c : Circuit) (Z0 : VecF) : VecF :=
  c.currentSources.foldl (current_step c) Z0

/-- The loop body of `CircuitSolver._stamp_voltage_sources` for the `k`-th
voltage source (insertion order): the constraint row `N+k` and current
column `N+k` are written with `=` (assignment, exactly as in the source),
and `Z[N+k] = value`. -/
def voltage_step (c : Circuit) (GZ : MatF × VecF) (kvs : ℕ × Component) : MatF × VecF :=
  let k := kvs.1
  let vs := kvs.2
  let row := c.numNodes + k
  let G1 := if vs.node1 ≠ c.referenceNode then
      setEntry GZ.1 row (c.nodeIndex vs.node1) 1 else GZ.1
  let G2 := if vs.node2 ≠ c.referenceNode then
      setEntry G1 row (c.nodeIndex vs.node2) (-1) else G1
  let Z1 := setVec GZ.2 row vs.value
  let G3 := if vs.node1 ≠ c.referenceNode then
      setEntry G2 (c.nodeIndex vs.node1) row 1 else G2
  let G4 := if vs.node2 ≠ c.referenceNode then
      setEntry G3 (c.nodeIndex vs.node2) row (-1) else G3
  (G4, Z1)

/-- `CircuitSolver._stamp_voltage_sources`. -/
def stamp_voltage_sources (c : Circuit) (GZ : MatF × VecF) : MatF × VecF :=
  c.voltageSources.enum.foldl (voltage_step c) GZ

/-- `CircuitSolver._build_mna_system`. -/
def build_mna_system (c : Circuit) : MatF × VecF :=
  stamp_voltage_sources c (stamp_conductances c zerosM, stamp_current_sources c zerosV)

/-- The assembled MNA matrix, restricted to its actual `size × size` shape. -/
def GMat (c : Circuit) : Matrix (Fin c.size) (Fin c.size) ℚ :=
  fun i j => (build_mna_system c).1 i j

/-- The assembled MNA right-hand side. -/
def ZVec (c : Circuit) : Fin c.size → ℚ :=
  fun i => (build_mna_system c).2 i

/-! ### The linear solve (`np.linalg.solve`)

On exact data `np.linalg.solve` raises `LinAlgError` exactly when the
matrix is singular and otherwise returns the unique solution.  It is
embedded by an executable determinant (cofactor expansion along the first
row) and Cramer's rule; `detQ` and `adjQ` are proved equal to Mathlib's
`Matrix.det` and `Matrix.adjugate`, which gives the solver's defining
property `A * x = b`. -/

def detQ : {n : ℕ} → Matrix (Fin n) (Fin n) ℚ → ℚ
  | 0, _ => 1
  | n + 1, A => ∑ j : Fin (n + 1),
      (-1 : ℚ) ^ (j : ℕ) * A 0 j * detQ (A.submatrix Fin.succ j.succAbove)

def adjQ {n : ℕ} (A : Matrix (Fin n) (Fin n) ℚ) : Matrix (Fin n) (Fin n) ℚ :=
  fun i j => detQ (A.updateRow j (Pi.single i 1))

/-- `np.linalg.solve`: `none` on a singular matrix, otherwise the unique
solution of `A x = b`. -/
def linSolve {n : ℕ} (A : Matrix (Fin n) (Fin n) ℚ) (b : Fin n → ℚ) :
    Option (Fin n → ℚ) :=
  if detQ A = 0 then none else some ((detQ A)⁻¹ • (adjQ A).mulVec b)

/-! ### Solution packaging (`CircuitSolver._package_solution`)

Fixed human-readable strings (the error messages, the suggestion hint, the
component `type` names, the power `description`) are embedded as tags; they
carry no other data in the source. -/

structure ComponentResult where
  id : ℕ
  kind : CompKind
  value : ℚ
  node1 : ℕ
  node2 : ℕ
  voltage : ℚ
  current : ℚ
  power : ℚ
deriving DecidableEq, Repr

structure Solution where
  voltages : List (ℕ × ℚ)
  components : List ComponentResult
  total_power : ℚ
deriving DecidableEq, Repr

/-- The two error messages `CircuitSolver.solve` can produce: the
`np.linalg.LinAlgError` branch (message starting `"Singular matrix: ..."`)
and the generic `except Exception` branch (message `"Solver error: ..."`). -/
inductive SolverMessage where
  | singularMatrix
  | solverError
deriving DecidableEq, Repr

/-- The single suggestion string of `_create_error_response`:
`"Check circuit connectivity and component values"`. -/
inductive SuggestionTag where
  | checkConnectivity
deriving DecidableEq, Repr

structure ErrorResult where
  message : SolverMessage
  suggestion : SuggestionTag
deriving DecidableEq, Repr

/-- The solver's response dict: `status` is `"success"` or `"error"`. -/
inductive SolveResponse where
  | success (sol : Solution)
  | error (e : ErrorResult)
deriving DecidableEq, Repr

/-- `CircuitSolver._calculate_component_result`, branching on the class of
the component.  `vsCurrents k` is `vs_currents[k] = X[num_nodes + k]`. -/
def calculate_component_result (c : Circuit) (voltages : List (ℕ × ℚ))
    (vsCurrents : ℕ → ℚ) (comp : Component) : ComponentResult :=
  let v1 := (voltages.lookup comp.node1).getD 0
  let v2 := (voltages.lookup comp.node2).getD 0
  let voltage := v1 - v2
  let current : ℚ :=
    match comp.kind with
    | .resistor => voltage / comp.value
    | .voltageSource =>
        match c.voltageSources.enum.find? (fun p => p.2.id = comp.id) with
        | some p => vsCurrents p.1
        | none => 0
    | .currentSource => comp.value
  { id := comp.id, kind := comp.kind, value := comp.value,
    node1 := comp.node1, node2 := comp.node2,
    voltage := voltage, current := current, power := voltage * current }

/-- `CircuitSolver._package_solution`: the voltages dict (reference first,
then the solved nodes in index order), the per-component results in
insertion order, and the accumulated total power. -/
def package_solution (c : Circuit) (X : ℕ → ℚ) : Solution :=
  let voltages : List (ℕ × ℚ) :=
    (c.referenceNode, 0) :: c.nonRefNodes.enum.map (fun p => (p.2, X p.1))
  let results := c.components.map
    (calculate_component_result c voltages (fun k => X (c.numNodes + k)))
  { voltages := voltages
    components := results
    total_power := (results.map (·.power)).sum }

/-- `CircuitSolver.solve`.  A zero-valued resistor makes `1.0 / value`
raise `ZeroDivisionError` inside `_build_mna_system`, which the generic
`except Exception` branch turns into the `"Solver error"` response, so that
test happens before the linear solve.  Both error branches attach the same
suggestion string. -/
def solve (c : Circuit) : SolveResponse :=
  if c.resistors.any (fun r => r.value = 0) then
    .error ⟨.solverError, .checkConnectivity⟩
  else
    match linSolve (GMat c) (ZVec c) with
    | none => .error ⟨.singularMatrix, .checkConnectivity⟩
    | some X => .success (package_solution c (fun i => if h : i < c.size then X ⟨i, h⟩ else 0))

/-! ### Topology analysis (`analysis_strategies.py`, class `NodalAnalysis`)

`_find_supernodes` builds an undirected graph on all circuit nodes with an
edge for every voltage source, and returns its connected components of
size > 1.  The connected component of a node is embedded as the fixpoint of
the one-step neighbour expansion, reached after at most `|nodes|`
iterations. -/

/-- One expansion step: add every node adjacent (through some voltage
source) to the current set. -/
def vsStep (c : Circuit) (s : Finset ℕ) : Finset ℕ :=
  s ∪ c.nodesFinset.filter (fun m =>
    ∃ vs ∈ c.voltageSources,
      (vs.node1 ∈ s ∧ vs.node2 = m) ∨ (vs.node2 ∈ s ∧ vs.node1 = m))

/-- Connected component of `n` in the voltage-source graph. -/
def nodeComp (c : Circuit) (n : ℕ) : Finset ℕ :=
  (vsStep c)^[c.nodesFinset.card] {n}

/-- `NodalAnalysis._find_supernodes`: the distinct connected components
with more than one node. -/
def find_supernodes (c : Circuit) : Finset (Finset ℕ) :=
  (c.nodesFinset.image (nodeComp c)).filter (fun s => 1 < s.card)

/-- `NodalAnalysis._get_grounded_supernodes`. -/
def grounded_supernodes (c : Circuit) : Finset (Finset ℕ) :=
  (find_supernodes c).filter (fun sn => c.referenceNode ∈ sn)

/-- The `ungrounded_supernodes` entry of `NodalAnalysis._analyze`. -/
def ungrounded_supernodes (c : Circuit) : Finset (Finset ℕ) :=
  (find_supernodes c).filter (fun sn => c.referenceNode ∉ sn)

/-- The `regular_nodes` entry of `NodalAnalysis._analyze`: non-reference
nodes that belong to no supernode (grounded ones included). -/
def regular_nodes (c : Circuit) : List ℕ :=
  c.nonRefNodes.filter (fun n => decide (∀ sn ∈ find_supernodes c, n ∉ sn))

/-- `num_kcl_equations` of `NodalAnalysis._analyze`. -/
def num_kcl_equations (c : Circuit) : ℕ :=
  (regular_nodes c).length + (ungrounded_supernodes c).card

/-- `num_constraint_equations` of `NodalAnalysis._analyze`. -/
def num_constraint_equations (c : Circuit) : ℕ :=
  c.voltageSources.length

/-! ### Netlist ingest (`app.py`, `_build_circuit_model`)

A request record is a JSON object; each of the four required fields is
embedded as `Option` (`none` = key missing).  The `type` string after
`.upper().strip()` either is one of the eight keys of `COMPONENT_MAP` or is
unrecognized; the `value` field either parses under `float(...)` or does
not; a node field is an integer token, the token `GND`, or something
`int(...)` rejects. -/

inductive TypeTag where
  | RESISTOR
  | VOLTAGE_SOURCE
  | CURRENT_SOURCE
  | VS
  | CS
  | R
  | VOLTAGE
  | CURRENT
  | unrecognized
deriving DecidableEq, Repr

/-- `COMPONENT_MAP.get(comp_type)`. -/
def componentMap : TypeTag → Option CompKind
  | .RESISTOR => some .resistor
  | .VOLTAGE_SOURCE => some .voltageSource
  | .CURRENT_SOURCE => some .currentSource
  | .VS => some .voltageSource
  | .CS => some .currentSource
  | .R => some .resistor
  | .VOLTAGE => some .voltageSource
  | .CURRENT => some .currentSource
  | .unrecognized => none

/-- A `value` field: a numeric payload accepted by `float(...)`, or a
payload `float(...)` raises on. -/
inductive ValueToken where
  | num (q : ℚ)
  | notNumeric
deriving DecidableEq, Repr

structure RawRecord where
  type : Option TypeTag
  value : Option ValueToken
  nodeA : Option NodeToken
  nodeB : Option NodeToken
deriving DecidableEq, Repr

/-- The exceptions `_build_circuit_model` raises (all caught by the entry
point as a client-input error, HTTP 400). -/
inductive IngestError where
  /-- `KeyError`: a required key is missing at this index. -/
  | missingKeys (i : ℕ)
  /-- `ValueError`: unknown component type at this index. -/
  | unknownType (i : ℕ)
  /-- `ValueError`: `float(...)` failed on the value at this index. -/
  | invalidValue (i : ℕ)
  /-- `ValueError` raised by `int(...)` on `nodeA`/`nodeB` at this index —
  note this is the path the textual token `GND` takes at the entry point,
  because `app.py` applies `int(...)` before `Component._parse_node` can
  translate it. -/
  | invalidNode (i : ℕ)
deriving DecidableEq, Repr

instance {ε α : Type} [DecidableEq ε] [DecidableEq α] : DecidableEq (Except ε α) := fun x y =>
  match x, y with
  | .ok a, .ok b => if h : a = b then .isTrue (by rw [h]) else .isFalse (by simp [h])
  | .error e, .error f => if h : e = f then .isTrue (by rw [h]) else .isFalse (by simp [h])
  | .ok _, .error _ => .isFalse (by simp)
  | .error _, .ok _ => .isFalse (by simp)

/-- `int(...)` applied to a node field in `app.py`: only an integer token
survives; in particular `GND` raises `ValueError`. -/
def intOfToken : NodeToken → Except Unit ℕ
  | .num n => .ok n
  | .gnd => .error ()
  | .malformed => .error ()

/-- The loop body of `_build_circuit_model`, with `i` the running index.
The uuid assigned by `Component.__init__` is embedded as the record index
(fresh and unique within the request). -/
def build_components : List RawRecord → ℕ → CircuitModelState →
    Except IngestError CircuitModelState
  | [], _, m => .ok m
  | rec :: rest, i, m =>
    match rec.type, rec.value, rec.nodeA, rec.nodeB with
    | some t, some v, some na, some nb =>
      match componentMap t with
      | none => .error (.unknownType i)
      | some kind =>
        match v with
        | .notNumeric => .error (.invalidValue i)
        | .num q =>
          match intOfToken na with
          | .error _ => .error (.invalidNode i)
          | .ok n1 =>
            match intOfToken nb with
            | .error _ => .error (.invalidNode i)
            | .ok n2 =>
              build_components rest (i + 1)
                (add_component m ⟨i, kind, q, n1, n2⟩)
    | _, _, _, _ => .error (.missingKeys i)

/-- `_build_circuit_model`: run the loop on an empty model, then
`model.set_reference_node(0)`. -/
def build_circuit_model (records : List RawRecord) :
    Except IngestError CircuitModelState :=
  (build_components records 0 emptyModel).map (fun m => set_reference_node m 0)

/-! ### The secondary assembly path
(`services/equation_builder.py` + `services/matrix_builder.py`)

`EquationBuilder.build_equations` renders LaTeX-like equation strings;
`MatrixBuilder.build_matrices_from_equations` re-parses them with regular
expressions.  A rendered equation is embedded by its shape tag and the data
interpolated into the string; the `'Node' in eq` / `'Supernode' in eq` /
`'V_' in eq` substring dispatch of `build_matrices_from_equations` decides
exactly this shape tag on the three string shapes the builder emits
(`"Node {n}: $…$"`, `"Supernode {…}: $…$"`, `"V_{…} … = …"`; note
`'Node'` with a capital N is not a substring of `"Supernode"`). -/

/-- One term of a rendered KCL equation. -/
inductive EqTerm where
  /-- `\frac{V_{node}}{value}` — resistor to the reference node. -/
  | resistorGnd (node : ℕ) (value : ℚ)
  /-- `\frac{V_{node} - V_{other}}{value}` — resistor between two
  non-reference nodes. -/
  | resistorPair (node other : ℕ) (value : ℚ)
  /-- `value` — current source whose current leaves the node. -/
  | currentLeaving (value : ℚ)
  /-- `(-value)` — current source whose current enters the node. -/
  | currentEntering (value : ℚ)
deriving DecidableEq, Repr

/-- The three forms of `_build_voltage_source_constraints`. -/
inductive ConstraintForm where
  /-- `V_{n} = value` (node2 is the reference). -/
  | fixPos (n : ℕ) (value : ℚ)
  /-- `V_{n} = -value` (node1 is the reference). -/
  | fixNeg (n : ℕ) (value : ℚ)
  /-- `V_{n1} - V_{n2} = value`. -/
  | diff (n1 n2 : ℕ) (value : ℚ)
deriving DecidableEq, Repr

/-- A rendered equation string, by shape. -/
inductive EquationStr where
  | nodeKCL (n : ℕ) (terms : List EqTerm)
  | supernodeKCL (nodes : List ℕ) (terms : List EqTerm)
  | constraint (form : ConstraintForm)
deriving DecidableEq, Repr

/-- First-occurrence deduplication (Python dict/graph adjacency keeps the
first occurrence of a key; Mathlib's `List.dedup` keeps the last), with an
accumulator of already seen elements. -/
def dedupFirstAux {α : Type} [DecidableEq α] : List α → List α → List α
  | _, [] => []
  | seen, a :: l =>
      if a ∈ seen then dedupFirstAux seen l
      else a :: dedupFirstAux (a :: seen) l

def dedupFirst {α : Type} [DecidableEq α] (l : List α) : List α :=
  dedupFirstAux [] l

/-- `CircuitModel.get_components_connected_to_node`: the MultiGraph
adjacency groups parallel edges by neighbour; neighbours appear in
first-connection order, the edges to one neighbour in insertion order. -/
def components_connected_to (c : Circuit) (n : ℕ) : List (Component × ℕ) :=
  let touching := c.components.filter fun comp => comp.node1 = n ∨ comp.node2 = n
  let neighbours := dedupFirst (touching.map fun comp =>
    if comp.node1 = n then comp.node2 else comp.node1)
  neighbours.flatMap fun m =>
    (c.components.filter fun comp =>
      (comp.node1 = n ∧ comp.node2 = m) ∨ (comp.node2 = n ∧ comp.node1 = m)).map
      (fun comp => (comp, m))

/-- The supernode list in the order `NodalAnalysis._find_supernodes`
returns it (one entry per connected component of size > 1; the iteration
order of the Python node set is embedded as first-appearance order in the
node list). -/
def supernode_list (c : Circuit) : List (Finset ℕ) :=
  (dedupFirst (c.nodeList.map (nodeComp c))).filter fun s => 1 < s.card

/-- Union of all supernodes
(`EquationBuilder._get_all_supernode_nodes`). -/
def supernode_nodes (c : Circuit) : Finset ℕ :=
  (supernode_list c).foldr (· ∪ ·) ∅

/-- `EquationBuilder._build_resistor_term`. -/
def build_resistor_term (c : Circuit) (r : Component) (node neighbour : ℕ) : EqTerm :=
  if neighbour = c.referenceNode then .resistorGnd node r.value
  else .resistorPair node neighbour r.value

/-- The KCL terms collected at one node
(`EquationBuilder._build_regular_node_equations` inner loop). -/
def node_equation_terms (c : Circuit) (n : ℕ) : List EqTerm :=
  (components_connected_to c n).foldr
    (fun p terms =>
      match p.1.kind with
      | .voltageSource => terms
      | .resistor => build_resistor_term c p.1 n p.2 :: terms
      | .currentSource =>
          if p.1.node1 = n then .currentLeaving p.1.value :: terms
          else if p.1.node2 = n then .currentEntering p.1.value :: terms
          else terms)
    []

/-- `EquationBuilder._build_regular_node_equations`: one equation per
non-reference node outside every supernode, skipped when it has no
terms. -/
def build_regular_node_equations (c : Circuit) : List EquationStr :=
  c.nonRefNodes.foldr
    (fun n eqs =>
      if n ∈ supernode_nodes c then eqs
      else
        let terms := node_equation_terms c n
        if terms = [] then eqs else .nodeKCL n terms :: eqs)
    []

/-- The boundary KCL terms of one supernode
(`EquationBuilder._build_ungrounded_supernode_equations` inner loops; the
Python set iteration order is embedded as ascending node order). -/
def supernode_equation_terms (c : Circuit) (sn : Finset ℕ) : List EqTerm :=
  (List.insertionSort (· ≤ ·) (c.nodeList.filter fun n => n ∈ sn)).foldr
    (fun n terms =>
      (components_connected_to c n).foldr
        (fun p ts =>
          match p.1.kind with
          | .voltageSource => ts
          | .resistor =>
              if p.2 ∈ sn then ts else build_resistor_term c p.1 n p.2 :: ts
          | .currentSource =>
              if p.2 ∈ sn then ts
              else if p.1.node1 = n then .currentLeaving p.1.value :: ts
              else if p.1.node2 = n then .currentEntering p.1.value :: ts
              else ts)
        terms)
    []

/-- `EquationBuilder._build_ungrounded_supernode_equations`. -/
def build_ungrounded_supernode_equations (c : Circuit) : List EquationStr :=
  (supernode_list c).foldr
    (fun sn eqs =>
      if c.referenceNode ∈ sn then eqs
      else
        let terms := supernode_equation_terms c sn
        if terms = [] then eqs
        else .supernodeKCL
          (List.insertionSort (· ≤ ·) (c.nodeList.filter fun n => n ∈ sn)) terms :: eqs)
    []

/-- `EquationBuilder._build_voltage_source_constraints` (one per voltage
source, insertion order). -/
def build_voltage_source_constraints (c : Circuit) : List EquationStr :=
  c.voltageSources.map fun vs =>
    if vs.node1 = c.referenceNode then .constraint (.fixNeg vs.node2 vs.value)
    else if vs.node2 = c.referenceNode then .constraint (.fixPos vs.node1 vs.value)
    else .constraint (.diff vs.node1 vs.node2 vs.value)

/-- `EquationBuilder.build_equations`. -/
def build_equations (c : Circuit) : List EquationStr :=
  build_regular_node_equations c ++ build_ungrounded_supernode_equations c
    ++ build_voltage_source_constraints c

/-- The exceptions the matrix re-parsing path can raise. -/
inductive MBError where
  /-- `TypeError`: `_process_constraint_equation` calls
  `self._count_kcl_equations()` without the required `equations` argument,
  so every constraint equation raises before touching the matrix. -/
  | typeErrorCountKcl
  /-- `ZeroDivisionError`: `1.0 / denominator` on a rendered resistor
  value of zero in `_parse_resistor_term`. -/
  | zeroDivision
deriving DecidableEq, Repr

/-- `MatrixBuilder._parse_equation_terms` on one term, acting on row
`row`.  The term splitter `re.findall(r'([+-]?[^+-]+)')` cuts the rendered
string at every `+`/`-`: a two-node term `\frac{V_{n} - V_{m}}{R}` is cut
at its interior minus and neither piece parses, so it contributes nothing;
an entering-current term `(-I)` starts with `(` and matches neither the
`\frac` nor the bare-number pattern, so it is dropped too; a
negative-valued `\frac{V_{n}}{-R}` is likewise cut at the minus inside the
denominator and dropped.  A leaving-current term always reduces to
`Z[row] -= value` (the `"+ -"` → `"- "` join rewrite flips the sign the
parser then reads, cancelling out).  Rendered numbers pass through
`"{:.1f}"`; the embedding keeps their exact value. -/
def parse_term (c : Circuit) (row : ℕ) (GZ : MatF × VecF) :
    EqTerm → Except MBError (MatF × VecF)
  | .resistorGnd node v =>
      if v = 0 then .error .zeroDivision
      else if v < 0 then .ok GZ
      else if node ∈ c.nonRefNodes then
        .ok (addEntry GZ.1 row (c.nodeIndex node) (1 / v), GZ.2)
      else .ok GZ
  | .resistorPair _ _ _ => .ok GZ
  | .currentLeaving v => .ok (GZ.1, addVec GZ.2 row (-v))
  | .currentEntering _ => .ok GZ

def parse_terms (c : Circuit) (row : ℕ) :
    List EqTerm → MatF × VecF → Except MBError (MatF × VecF)
  | [], GZ => .ok GZ
  | t :: ts, GZ => (parse_term c row GZ t).bind (parse_terms c row ts)

/-- One step of `MatrixBuilder.build_matrices_from_equations`: dispatch on
the substring test and process the equation.  A constraint equation raises
`TypeError` on its first line (`row = … - self._count_kcl_equations()`),
before reading the matrix. -/
def process_equation (c : Circuit) (GZ : MatF × VecF) :
    EquationStr → Except MBError (MatF × VecF)
  | .nodeKCL n terms =>
      if n ∈ c.nonRefNodes then parse_terms c (c.nodeIndex n) terms GZ
      else .ok GZ
  | .supernodeKCL nodes terms =>
      match nodes with
      | [] => .ok GZ
      | n0 :: _ =>
          if n0 ∈ c.nonRefNodes then parse_terms c (c.nodeIndex n0) terms GZ
          else .ok GZ
  | .constraint _ => .error .typeErrorCountKcl

/-- `MatrixBuilder.build_matrices_from_equations`. -/
def build_matrices_from_equations (c : Circuit) (equations : List EquationStr) :
    Except MBError (MatF × VecF) :=
  equations.foldlM (process_equation c) (zerosM, zerosV)

/-! ### The specification's stamp table (§4.4 of the spec)

For the refinement claim about matrix assembly, the spec side is written as
a plain sum of additive stamps, one list entry per table cell: the zero
matrix updated by exactly those increments.  This is the second definition
of the MNA system, to be compared with `build_mna_system` above. -/

/-- Spec stamp of a resistor (rows of the table: both terminals
non-reference / node1 only / node2 only / none). -/
def resistor_stamp (c : Circuit) (r : Component) : List (ℕ × ℕ × ℚ) :=
  let g := 1 / r.value
  let i := c.nodeIndex r.node1
  let j := c.nodeIndex r.node2
  if r.node1 ≠ c.referenceNode ∧ r.node2 ≠ c.referenceNode then
    [(i, i, g), (j, j, g), (i, j, -g), (j, i, -g)]
  else if r.node1 ≠ c.referenceNode ∧ r.node2 = c.referenceNode then
    [(i, i, g)]
  else if r.node2 ≠ c.referenceNode ∧ r.node1 = c.referenceNode then
    [(j, j, g)]
  else []

/-- Spec stamp of a current source on the right-hand side:
`Z[i] -= I` at a non-reference node1, `Z[j] += I` at a non-reference
node2. -/
def current_stamp (c : Circuit) (cs : Component) : List (ℕ × ℚ) :=
  (if cs.node1 ≠ c.referenceNode then [(c.nodeIndex cs.node1, -cs.value)] else [])
    ++ (if cs.node2 ≠ c.referenceNode then [(c.nodeIndex cs.node2, cs.value)] else [])

/-- Spec stamp of the `k`-th voltage source in `G`: `±1` couplings between
the constraint row/current column `N+k` and the non-reference terminals. -/
def vs_stampG (c : Circuit) (kvs : ℕ × Component) : List (ℕ × ℕ × ℚ) :=
  let row := c.numNodes + kvs.1
  (if kvs.2.node1 ≠ c.referenceNode then
    [(row, c.nodeIndex kvs.2.node1, 1), (c.nodeIndex kvs.2.node1, row, 1)] else [])
    ++ (if kvs.2.node2 ≠ c.referenceNode then
    [(row, c.nodeIndex kvs.2.node2, -1), (c.nodeIndex kvs.2.node2, row, -1)] else [])

/-- Spec stamp of the `k`-th voltage source in `Z`: `Z[N+k] = value`. -/
def vs_stampZ (c : Circuit) (kvs : ℕ × Component) : List (ℕ × ℚ) :=
  [(c.numNodes + kvs.1, kvs.2.value)]

def gStamps (c : Circuit) : List (ℕ × ℕ × ℚ) :=
  c.resistors.flatMap (resistor_stamp c) ++ c.voltageSources.enum.flatMap (vs_stampG c)

def zStamps (c : Circuit) : List (ℕ × ℚ) :=
  c.currentSources.flatMap (current_stamp c) ++ c.voltageSources.enum.flatMap (vs_stampZ c)

/-- The matrix holding the sum of a list of additive stamps. -/
def sumG (us : List (ℕ × ℕ × ℚ)) : MatF :=
  fun a b => (us.map fun u => if a = u.1 ∧ b = u.2.1 then u.2.2 else 0).sum

/-- The vector holding the sum of a list of additive stamps. -/
def sumZ (us : List (ℕ × ℚ)) : VecF :=
  fun a => (us.map fun u => if a = u.1 then u.2 else 0).sum

/-- The spec's assembled MNA system: the zero matrix/vector updated by
exactly the stamps of the table. -/
def spec_mna (c : Circuit) : MatF × VecF :=
  (sumG (gStamps c), sumZ (zStamps c))

/-! ### Concrete circuits used by the claims -/

/-- A single voltage source looping node 1 to itself (legal for
`CircuitModel.add_component`, which validates nothing). -/
def selfLoopVS : Circuit := ⟨[⟨0, CompKind.voltageSource, 5, 1, 1⟩], 0⟩

/-- Scenario 1 of the spec: `VS(10, 1, 0)` and `R(1000, 1, 0)`. -/
def vsrCircuit : Circuit :=
  ⟨[⟨0, CompKind.voltageSource, 10, 1, 0⟩, ⟨1, CompKind.resistor, 1000, 1, 0⟩], 0⟩

/-- A single grounded voltage source `VS(5, 1, 0)`. -/
def singleVS : Circuit := ⟨[⟨0, CompKind.voltageSource, 5, 1, 0⟩], 0⟩

/-- Scenario 5 of the spec: `VS1(250,1,0)`, `VS2(4,4,2)`, `R1(50,1,3)`,
`R2(10,3,2)`, `R3(10,4,3)`, `R4(40,4,0)`, `CS1(0.2,2,0)`, `CS2(5,0,2)`,
reference node 0. -/
def supernodeCircuit : Circuit :=
  ⟨[⟨0, CompKind.voltageSource, 250, 1, 0⟩,
    ⟨1, CompKind.voltageSource, 4, 4, 2⟩,
    ⟨2, CompKind.resistor, 50, 1, 3⟩,
    ⟨3, CompKind.resistor, 10, 3, 2⟩,
    ⟨4, CompKind.resistor, 10, 4, 3⟩,
    ⟨5, CompKind.resistor, 40, 4, 0⟩,
    ⟨6, CompKind.currentSource, 1 / 5, 2, 0⟩,
    ⟨7, CompKind.currentSource, 5, 0, 2⟩], 0⟩

/-- The two conflicting parallel voltage sources `VS(5,1,0)`, `VS(6,1,0)`. -/
def parallelVS : Circuit :=
  ⟨[⟨0, CompKind.voltageSource, 5, 1, 0⟩, ⟨1, CompKind.voltageSource, 6, 1, 0⟩], 0⟩

/-! ### The secondary path raises on every constraint equation -/

/-- A term the re-parser can process without raising: every rendered
ground-resistor term carries a nonzero resistance. -/
def termNoZeroRes : EqTerm → Prop
  | .resistorGnd _ v => v ≠ 0
  | _ => True

/-! ### Power conservation: bookkeeping for the packaged solution -/

/-- The node voltage the packaged dict assigns: 0 at the reference,
`x (index n)` at a non-reference node. -/
def voltFun (c : Circuit) (x : ℕ → ℚ) : ℕ → ℚ := fun n =>
  if n = c.referenceNode then 0 else x (c.nodeIndex n)

/-- One row of `sumG us` dotted against a vector, as a sum over the stamp
list itself. -/
def rowG (y : VecF) (Sz i : ℕ) (us : List (ℕ × ℕ × ℚ)) : ℚ :=
  (us.map fun u => if u.1 = i ∧ u.2.1 < Sz then u.2.2 * y u.2.1 else 0).sum

/-- Coupling coefficient of a voltage source into a KCL row `i`: `+1` if
`node1` maps to `i`, `-1` if `node2` does (reference terminals couple
nowhere). -/
def vsRowCoupl (c : Circuit) (vs : Component) (i : ℕ) : ℚ :=
  (if vs.node1 ≠ c.referenceNode ∧ c.nodeIndex vs.node1 = i then (1 : ℚ) else 0)
    + (if vs.node2 ≠ c.referenceNode ∧ c.nodeIndex vs.node2 = i then (-1 : ℚ) else 0)

def defaultComponent : Component := ⟨0, CompKind.resistor, 0, 0, 0⟩

/-- Index translation between the MNA systems of two circuits holding the
same components in different orders: KCL rows coincide (the node list is
sorted), and the branch-current row of the `k`-th voltage source of `c'`
maps to the row of the same source in `c`'s insertion order. -/
def vsReindex (c c' : Circuit) (j : ℕ) : ℕ :=
  if j < c.numNodes then j
  else c.numNodes
    + c.voltageSources.indexOf (c'.voltageSources.getD (j - c.numNodes) defaultComponent)

/-- A voltage source and a current source sharing nodes 1 and 0, in the
two possible insertion orders. -/
def vsCsCircuit : Circuit :=
  ⟨[⟨0, CompKind.voltageSource, 5, 1, 0⟩, ⟨1, CompKind.currentSource, 2, 1, 0⟩], 0⟩

def vsCsSwapped : Circuit :=
  ⟨[⟨1, CompKind.currentSource, 2, 1, 0⟩, ⟨0, CompKind.voltageSource, 5, 1, 0⟩], 0⟩

theorem detQ_eq_det : ∀ {n : ℕ} (A : Matrix (Fin n) (Fin n) ℚ), detQ A = A.det
  | 0, A => by simp [detQ]
  | n + 1, A => by
    rw [Matrix.det_succ_row_zero, detQ]
    refine Finset.sum_congr rfl fun j _ => ?_
    rw [detQ_eq_det]

theorem adjQ_eq_adjugate {n : ℕ} (A : Matrix (Fin n) (Fin n) ℚ) :
    adjQ A = A.adjugate := by
  funext i j
  rw [adjQ, detQ_eq_det, Matrix.adjugate_apply]

theorem linSolve_eq_none_iff {n : ℕ} (A : Matrix (Fin n) (Fin n) ℚ) (b : Fin n → ℚ) :
    linSolve A b = none ↔ A.det = 0 := by
  rw [linSolve, ← detQ_eq_det]
  split <;> simp_all

theorem linSolve_sound {n : ℕ} {A : Matrix (Fin n) (Fin n) ℚ} {b x : Fin n → ℚ}
    (h : linSolve A b = some x) : A.mulVec x = b := by
  rw [linSolve] at h
  split at h
  · exact absurd h (by simp)
  · rename_i hd
    rw [detQ_eq_det] at hd
    have hx : x = A.det⁻¹ • A.adjugate.mulVec b := by
      have := h.symm
      simp only [Option.some.injEq] at this
      rw [this, detQ_eq_det, adjQ_eq_adjugate]
    rw [hx, Matrix.mulVec_smul, Matrix.mulVec_mulVec, Matrix.mul_adjugate,
      Matrix.smul_mulVec_assoc, Matrix.one_mulVec, smul_smul,
      inv_mul_cancel₀ hd, one_smul]

theorem mulVec_injective_of_det_ne_zero {n : ℕ} {A : Matrix (Fin n) (Fin n) ℚ}
    (hd : A.det ≠ 0) {x y : Fin n → ℚ} (h : A.mulVec x = A.mulVec y) : x = y := by
  have hx := congrArg (fun v => A.det⁻¹ • A.adjugate.mulVec v) h
  simpa [Matrix.mulVec_mulVec, Matrix.adjugate_mul, Matrix.smul_mulVec_assoc,
    Matrix.one_mulVec, smul_smul, inv_mul_cancel₀ hd] using hx

/-! ### Helper lemmas: node bookkeeping -/

theorem mem_nodeList_left {c : Circuit} {comp : Component}
    (h : comp ∈ c.components) : comp.node1 ∈ c.nodeList := by
  unfold Circuit.nodeList
  rw [List.mem_dedup]
  exact List.mem_append_left _ (List.mem_flatMap.mpr ⟨comp, h, by simp⟩)

theorem mem_nodeList_right {c : Circuit} {comp : Component}
    (h : comp ∈ c.components) : comp.node2 ∈ c.nodeList := by
  unfold Circuit.nodeList
  rw [List.mem_dedup]
  exact List.mem_append_left _ (List.mem_flatMap.mpr ⟨comp, h, by simp⟩)

theorem referenceNode_mem_nodeList (c : Circuit) : c.referenceNode ∈ c.nodeList := by
  unfold Circuit.nodeList
  rw [List.mem_dedup]
  exact List.mem_append_right _ (by simp)

theorem nodeList_nodup (c : Circuit) : c.nodeList.Nodup :=
  List.nodup_dedup _

theorem nonRefNodes_perm (c : Circuit) :
    c.nonRefNodes.Perm (c.nodeList.filter fun n => n ≠ c.referenceNode) :=
  List.perm_insertionSort _ _

theorem nonRefNodes_nodup (c : Circuit) : c.nonRefNodes.Nodup :=
  (nonRefNodes_perm c).nodup_iff.mpr ((nodeList_nodup c).filter _)

theorem mem_nonRefNodes {c : Circuit} {n : ℕ} :
    n ∈ c.nonRefNodes ↔ n ∈ c.nodeList ∧ n ≠ c.referenceNode := by
  rw [(nonRefNodes_perm c).mem_iff, List.mem_filter]
  simp

theorem nodeIndex_lt {c : Circuit} {n : ℕ} (h : n ∈ c.nonRefNodes) :
    c.nodeIndex n < c.numNodes :=
  List.indexOf_lt_length.mpr h

theorem nodeIndex_inj {c : Circuit} {m n : ℕ} (hm : m ∈ c.nonRefNodes)
    (hn : n ∈ c.nonRefNodes) (hne : m ≠ n) : c.nodeIndex m ≠ c.nodeIndex n := by
  intro h
  exact hne ((List.indexOf_inj hm hn).mp h)

theorem mem_resistors_sub {c : Circuit} {r : Component} (h : r ∈ c.resistors) :
    r ∈ c.components := (List.mem_filter.mp h).1

theorem mem_voltageSources_sub {c : Circuit} {vs : Component}
    (h : vs ∈ c.voltageSources) : vs ∈ c.components := (List.mem_filter.mp h).1

theorem mem_currentSources_sub {c : Circuit} {cs : Component}
    (h : cs ∈ c.currentSources) : cs ∈ c.components := (List.mem_filter.mp h).1

/-- A non-reference terminal of a circuit component is a non-reference
node (hence has an index below `numNodes`). -/
theorem terminal1_mem_nonRefNodes {c : Circuit} {comp : Component}
    (h : comp ∈ c.components) (hne : comp.node1 ≠ c.referenceNode) :
    comp.node1 ∈ c.nonRefNodes :=
  mem_nonRefNodes.mpr ⟨mem_nodeList_left h, hne⟩

theorem terminal2_mem_nonRefNodes {c : Circuit} {comp : Component}
    (h : comp ∈ c.components) (hne : comp.node2 ≠ c.referenceNode) :
    comp.node2 ∈ c.nonRefNodes :=
  mem_nonRefNodes.mpr ⟨mem_nodeList_right h, hne⟩

/-! ### Helper lemmas: pointwise behaviour of the update operations -/

theorem addEntry_apply (g : MatF) (i j : ℕ) (v : ℚ) (a b : ℕ) :
    addEntry g i j v a b = g a b + (if a = i ∧ b = j then v else 0) := by
  rw [addEntry]
  split <;> simp

theorem addVec_apply (z : VecF) (i : ℕ) (v : ℚ) (a : ℕ) :
    addVec z i v a = z a + (if a = i then v else 0) := by
  rw [addVec]
  split <;> simp

theorem setEntry_apply_ne (g : MatF) (i j : ℕ) (v : ℚ) {a b : ℕ}
    (h : ¬(a = i ∧ b = j)) : setEntry g i j v a b = g a b := by
  rw [setEntry, if_neg h]

theorem setEntry_eq_addEntry {g : MatF} {i j : ℕ} (v : ℚ) (h : g i j = 0) :
    setEntry g i j v = addEntry g i j v := by
  funext a b
  rw [setEntry, addEntry]
  split
  · rename_i hab
    rw [hab.1, hab.2, h, zero_add]
  · rfl

theorem setVec_eq_addVec {z : VecF} {i : ℕ} (v : ℚ) (h : z i = 0) :
    setVec z i v = addVec z i v := by
  funext a
  rw [setVec, addVec]
  split
  · rename_i ha
    rw [ha, h, zero_add]
  · rfl

theorem sumG_cons (u : ℕ × ℕ × ℚ) (us : List (ℕ × ℕ × ℚ)) (a b : ℕ) :
    sumG (u :: us) a b = (if a = u.1 ∧ b = u.2.1 then u.2.2 else 0) + sumG us a b := by
  simp [sumG]

theorem sumG_append (us vs : List (ℕ × ℕ × ℚ)) (a b : ℕ) :
    sumG (us ++ vs) a b = sumG us a b + sumG vs a b := by
  simp [sumG]

theorem sumZ_cons (u : ℕ × ℚ) (us : List (ℕ × ℚ)) (a : ℕ) :
    sumZ (u :: us) a = (if a = u.1 then u.2 else 0) + sumZ us a := by
  simp [sumZ]

theorem sumZ_append (us vs : List (ℕ × ℚ)) (a : ℕ) :
    sumZ (us ++ vs) a = sumZ us a + sumZ vs a := by
  simp [sumZ]

theorem sumG_eq_zero {us : List (ℕ × ℕ × ℚ)} {a b : ℕ}
    (h : ∀ u ∈ us, ¬(a = u.1 ∧ b = u.2.1)) : sumG us a b = 0 := by
  apply List.sum_eq_zero
  intro x hx
  obtain ⟨u, hu, rfl⟩ := List.mem_map.mp hx
  rw [if_neg (h u hu)]

theorem sumZ_eq_zero {us : List (ℕ × ℚ)} {a : ℕ}
    (h : ∀ u ∈ us, a ≠ u.1) : sumZ us a = 0 := by
  apply List.sum_eq_zero
  intro x hx
  obtain ⟨u, hu, rfl⟩ := List.mem_map.mp hx
  rw [if_neg (h u hu)]

/-! ### The assembled system as a sum of additive stamps -/

theorem conductance_step_apply (c : Circuit) (r : Component) (G : MatF) (a b : ℕ) :
    conductance_step c G r a b = G a b + sumG (resistor_stamp c r) a b := by
  simp only [conductance_step, resistor_stamp]
  split_ifs <;>
    simp only [addEntry_apply, sumG, List.map_cons, List.sum_cons, List.map_nil,
      List.sum_nil] <;> ring

theorem current_step_apply (c : Circuit) (cs : Component) (Z : VecF) (a : ℕ) :
    current_step c Z cs a = Z a + sumZ (current_stamp c cs) a := by
  simp only [current_step, current_stamp]
  split_ifs <;>
    simp only [addVec_apply, sumZ, List.map_append, List.sum_append, List.map_cons,
      List.sum_cons, List.map_nil, List.sum_nil] <;> ring

theorem foldl_sumG {α : Type} (step : MatF → α → MatF) (f : α → List (ℕ × ℕ × ℚ))
    (hstep : ∀ G x a b, step G x a b = G a b + sumG (f x) a b) :
    ∀ (l : List α) (G0 : MatF) (a b : ℕ),
      l.foldl step G0 a b = G0 a b + sumG (l.flatMap f) a b
  | [], G0, a, b => by simp [sumG]
  | x :: l, G0, a, b => by
    rw [List.foldl_cons, foldl_sumG step f hstep l (step G0 x) a b, hstep,
      List.flatMap_cons, sumG_append]
    ring

theorem foldl_sumZ {α : Type} (step : VecF → α → VecF) (f : α → List (ℕ × ℚ))
    (hstep : ∀ Z x a, step Z x a = Z a + sumZ (f x) a) :
    ∀ (l : List α) (Z0 : VecF) (a : ℕ),
      l.foldl step Z0 a = Z0 a + sumZ (l.flatMap f) a
  | [], Z0, a => by simp [sumZ]
  | x :: l, Z0, a => by
    rw [List.foldl_cons, foldl_sumZ step f hstep l (step Z0 x) a, hstep,
      List.flatMap_cons, sumZ_append]
    ring

theorem stamp_conductances_apply (c : Circuit) (G0 : MatF) (a b : ℕ) :
    stamp_conductances c G0 a b
      = G0 a b + sumG (c.resistors.flatMap (resistor_stamp c)) a b :=
  foldl_sumG (conductance_step c) (resistor_stamp c)
    (fun G r a b => conductance_step_apply c r G a b) c.resistors G0 a b

theorem stamp_current_sources_apply (c : Circuit) (Z0 : VecF) (a : ℕ) :
    stamp_current_sources c Z0 a
      = Z0 a + sumZ (c.currentSources.flatMap (current_stamp c)) a :=
  foldl_sumZ (current_step c) (current_stamp c)
    (fun Z cs a => current_step_apply c cs Z a) c.currentSources Z0 a

theorem resistor_stamp_bounds {c : Circuit} {r : Component} (h : r ∈ c.resistors) :
    ∀ u ∈ resistor_stamp c r, u.1 < c.numNodes ∧ u.2.1 < c.numNodes := by
  intro u hu
  have hc := mem_resistors_sub h
  rw [resistor_stamp] at hu
  split_ifs at hu with h1 h2 h3
  · have hi := nodeIndex_lt (terminal1_mem_nonRefNodes hc h1.1)
    have hj := nodeIndex_lt (terminal2_mem_nonRefNodes hc h1.2)
    simp only [List.mem_cons, List.not_mem_nil, or_false] at hu
    rcases hu with rfl | rfl | rfl | rfl
    · exact ⟨hi, hi⟩
    · exact ⟨hj, hj⟩
    · exact ⟨hi, hj⟩
    · exact ⟨hj, hi⟩
  · have hi := nodeIndex_lt (terminal1_mem_nonRefNodes hc h2.1)
    simp only [List.mem_cons, List.not_mem_nil, or_false] at hu
    rcases hu with rfl
    exact ⟨hi, hi⟩
  · have hj := nodeIndex_lt (terminal2_mem_nonRefNodes hc h3.1)
    simp only [List.mem_cons, List.not_mem_nil, or_false] at hu
    rcases hu with rfl
    exact ⟨hj, hj⟩
  · simp at hu

theorem current_stamp_bounds {c : Circuit} {cs : Component} (h : cs ∈ c.currentSources) :
    ∀ u ∈ current_stamp c cs, u.1 < c.numNodes := by
  intro u hu
  have hc := mem_currentSources_sub h
  rw [current_stamp] at hu
  rw [List.mem_append] at hu
  rcases hu with hu | hu <;> split_ifs at hu with h1 <;>
    simp only [List.mem_cons, List.not_mem_nil, or_false] at hu
  · rcases hu with rfl
    exact nodeIndex_lt (terminal1_mem_nonRefNodes hc h1)
  · rcases hu with rfl
    exact nodeIndex_lt (terminal2_mem_nonRefNodes hc h1)

theorem vs_stampG_mem {c : Circuit} {k : ℕ} {vs : Component}
    (hmem : vs ∈ c.components) {u : ℕ × ℕ × ℚ} (hu : u ∈ vs_stampG c (k, vs)) :
    (u.1 = c.numNodes + k ∧ u.2.1 < c.numNodes)
      ∨ (u.1 < c.numNodes ∧ u.2.1 = c.numNodes + k) := by
  rw [vs_stampG, List.mem_append] at hu
  rcases hu with hu | hu <;> split_ifs at hu with h1 <;>
    simp only [List.mem_cons, List.not_mem_nil, or_false] at hu
  · have hi := nodeIndex_lt (terminal1_mem_nonRefNodes hmem h1)
    rcases hu with rfl | rfl
    · exact Or.inl ⟨rfl, hi⟩
    · exact Or.inr ⟨hi, rfl⟩
  · have hj := nodeIndex_lt (terminal2_mem_nonRefNodes hmem h1)
    rcases hu with rfl | rfl
    · exact Or.inl ⟨rfl, hj⟩
    · exact Or.inr ⟨hj, rfl⟩

theorem stamp_conductances_support (c : Circuit) {a b : ℕ}
    (h : c.numNodes ≤ a ∨ c.numNodes ≤ b) : stamp_conductances c zerosM a b = 0 := by
  rw [stamp_conductances_apply]
  have hz : sumG (c.resistors.flatMap (resistor_stamp c)) a b = 0 := by
    apply sumG_eq_zero
    intro u hu
    obtain ⟨r, hr, hu⟩ := List.mem_flatMap.mp hu
    have hb := resistor_stamp_bounds hr u hu
    rintro ⟨rfl, rfl⟩
    omega
  rw [hz]
  simp [zerosM]

theorem stamp_current_sources_support (c : Circuit) {a : ℕ}
    (h : c.numNodes ≤ a) : stamp_current_sources c zerosV a = 0 := by
  rw [stamp_current_sources_apply]
  have hz : sumZ (c.currentSources.flatMap (current_stamp c)) a = 0 := by
    apply sumZ_eq_zero
    intro u hu
    obtain ⟨cs, hcs, hu⟩ := List.mem_flatMap.mp hu
    have hb := current_stamp_bounds hcs u hu
    omega
  rw [hz]
  simp [zerosV]

/-- The two set-then-couple writes of a voltage source with a single
non-reference terminal behave additively on a matrix whose row and column
`row` are still zero. -/
theorem pair_set_apply (G : MatF) (row i : ℕ) (v : ℚ) (h1 : i < row)
    (hG : ∀ a b, row ≤ a ∨ row ≤ b → G a b = 0) (a b : ℕ) :
    setEntry (setEntry G row i v) i row v a b
      = G a b + sumG [(row, i, v), (i, row, v)] a b := by
  have e1 : setEntry G row i v = addEntry G row i v :=
    setEntry_eq_addEntry _ (hG _ _ (Or.inl le_rfl))
  rw [e1]
  have e2 : setEntry (addEntry G row i v) i row v = addEntry (addEntry G row i v) i row v := by
    apply setEntry_eq_addEntry
    rw [addEntry_apply, hG _ _ (Or.inr le_rfl), if_neg, add_zero]
    rintro ⟨h, -⟩
    omega
  rw [e2, addEntry_apply, addEntry_apply]
  simp only [sumG, List.map_cons, List.sum_cons, List.map_nil, List.sum_nil]
  ring

/-- The four set writes of a voltage source with two distinct non-reference
terminals behave additively on a matrix whose row and column `row` are
still zero. -/
theorem quad_set_apply (G : MatF) (row i1 i2 : ℕ) (v1 v2 : ℚ)
    (h1 : i1 < row) (h2 : i2 < row) (h12 : i1 ≠ i2)
    (hG : ∀ a b, row ≤ a ∨ row ≤ b → G a b = 0) (a b : ℕ) :
    setEntry (setEntry (setEntry (setEntry G row i1 v1) row i2 v2) i1 row v1) i2 row v2 a b
      = G a b + sumG [(row, i1, v1), (i1, row, v1), (row, i2, v2), (i2, row, v2)] a b := by
  have e1 : setEntry G row i1 v1 = addEntry G row i1 v1 :=
    setEntry_eq_addEntry _ (hG _ _ (Or.inl le_rfl))
  rw [e1]
  have e2 : setEntry (addEntry G row i1 v1) row i2 v2
      = addEntry (addEntry G row i1 v1) row i2 v2 := by
    apply setEntry_eq_addEntry
    rw [addEntry_apply, hG _ _ (Or.inl le_rfl), if_neg, add_zero]
    rintro ⟨-, h⟩
    exact h12 h.symm
  rw [e2]
  have e3 : setEntry (addEntry (addEntry G row i1 v1) row i2 v2) i1 row v1
      = addEntry (addEntry (addEntry G row i1 v1) row i2 v2) i1 row v1 := by
    apply setEntry_eq_addEntry
    rw [addEntry_apply, addEntry_apply, hG _ _ (Or.inr le_rfl), if_neg, if_neg]
    · ring
    · rintro ⟨h, -⟩
      omega
    · rintro ⟨h, -⟩
      omega
  rw [e3]
  have e4 : setEntry (addEntry (addEntry (addEntry G row i1 v1) row i2 v2) i1 row v1) i2 row v2
      = addEntry (addEntry (addEntry (addEntry G row i1 v1) row i2 v2) i1 row v1) i2 row v2 := by
    apply setEntry_eq_addEntry
    rw [addEntry_apply, addEntry_apply, addEntry_apply, hG _ _ (Or.inr le_rfl),
      if_neg, if_neg, if_neg]
    · ring
    · rintro ⟨h, -⟩
      exact h12 h.symm
    · rintro ⟨h, -⟩
      omega
    · rintro ⟨h, -⟩
      omega
  rw [e4, addEntry_apply, addEntry_apply, addEntry_apply, addEntry_apply]
  simp only [sumG, List.map_cons, List.sum_cons, List.map_nil, List.sum_nil]
  ring

/-- One `voltage_step` behaves additively (matrix part), provided its
constraint row and current column are still zero and the source is not a
self-loop on a non-reference node. -/
theorem voltage_step_fst_apply (c : Circuit) (k : ℕ) (vs : Component)
    (G : MatF) (Z : VecF) (hmem : vs ∈ c.components)
    (hloop : vs.node1 = vs.node2 → vs.node1 = c.referenceNode)
    (hG : ∀ a b, c.numNodes + k ≤ a ∨ c.numNodes + k ≤ b → G a b = 0)
    (a b : ℕ) :
    (voltage_step c (G, Z) (k, vs)).1 a b = G a b + sumG (vs_stampG c (k, vs)) a b := by
  by_cases hn1 : vs.node1 ≠ c.referenceNode <;> by_cases hn2 : vs.node2 ≠ c.referenceNode
  · have hi1 : c.nodeIndex vs.node1 < c.numNodes :=
      nodeIndex_lt (terminal1_mem_nonRefNodes hmem hn1)
    have hi2 : c.nodeIndex vs.node2 < c.numNodes :=
      nodeIndex_lt (terminal2_mem_nonRefNodes hmem hn2)
    have hne : vs.node1 ≠ vs.node2 := fun h => hn1 (hloop h)
    have h12 : c.nodeIndex vs.node1 ≠ c.nodeIndex vs.node2 :=
      nodeIndex_inj (terminal1_mem_nonRefNodes hmem hn1)
        (terminal2_mem_nonRefNodes hmem hn2) hne
    simp only [voltage_step, vs_stampG, if_pos hn1, if_pos hn2]
    rw [quad_set_apply G (c.numNodes + k) (c.nodeIndex vs.node1) (c.nodeIndex vs.node2)
      1 (-1) (by omega) (by omega) h12 hG a b]
    rfl
  · rw [not_not] at hn2
    have hi1 : c.nodeIndex vs.node1 < c.numNodes :=
      nodeIndex_lt (terminal1_mem_nonRefNodes hmem hn1)
    simp only [voltage_step, vs_stampG, if_pos hn1, if_neg (not_not_intro hn2)]
    rw [pair_set_apply G (c.numNodes + k) (c.nodeIndex vs.node1) 1 (by omega) hG a b]
    rfl
  · rw [not_not] at hn1
    have hi2 : c.nodeIndex vs.node2 < c.numNodes :=
      nodeIndex_lt (terminal2_mem_nonRefNodes hmem hn2)
    simp only [voltage_step, vs_stampG, if_neg (not_not_intro hn1), if_pos hn2]
    rw [pair_set_apply G (c.numNodes + k) (c.nodeIndex vs.node2) (-1) (by omega) hG a b]
    rfl
  · rw [not_not] at hn1 hn2
    simp only [voltage_step, vs_stampG, if_neg (not_not_intro hn1),
      if_neg (not_not_intro hn2)]
    simp [sumG]

/-- One `voltage_step` behaves additively (vector part), provided its
right-hand-side row is still zero. -/
theorem voltage_step_snd_apply (c : Circuit) (k : ℕ) (vs : Component)
    (G : MatF) (Z : VecF)
    (hZ : ∀ a, c.numNodes + k ≤ a → Z a = 0) (a : ℕ) :
    (voltage_step c (G, Z) (k, vs)).2 a = Z a + sumZ (vs_stampZ c (k, vs)) a := by
  have : (voltage_step c (G, Z) (k, vs)).2 = setVec Z (c.numNodes + k) vs.value := rfl
  rw [this, setVec_eq_addVec _ (hZ _ le_rfl), addVec_apply]
  simp only [vs_stampZ, sumZ, List.map_cons, List.sum_cons, List.map_nil, List.sum_nil]
  ring

/-- The voltage-source fold, from an arbitrary starting index, on a system
whose rows and columns from `numNodes + k` on are still zero. -/
theorem stamp_voltage_sources_fold (c : Circuit) :
    ∀ (vss : List Component) (k : ℕ) (G : MatF) (Z : VecF),
      (∀ vs ∈ vss, vs ∈ c.components) →
      (∀ vs ∈ vss, vs.node1 = vs.node2 → vs.node1 = c.referenceNode) →
      (∀ a b, c.numNodes + k ≤ a ∨ c.numNodes + k ≤ b → G a b = 0) →
      (∀ a, c.numNodes + k ≤ a → Z a = 0) →
      (∀ a b, ((List.enumFrom k vss).foldl (voltage_step c) (G, Z)).1 a b
          = G a b + sumG ((List.enumFrom k vss).flatMap (vs_stampG c)) a b)
      ∧ (∀ a, ((List.enumFrom k vss).foldl (voltage_step c) (G, Z)).2 a
          = Z a + sumZ ((List.enumFrom k vss).flatMap (vs_stampZ c)) a)
  | [], k, G, Z, _, _, _, _ => by
    constructor <;> intro a <;> simp [sumG, sumZ]
  | vs :: vss, k, G, Z, hsub, hloop, hG, hZ => by
    have hmem : vs ∈ c.components := hsub vs (by simp)
    have key1 := voltage_step_fst_apply c k vs G Z hmem (hloop vs (by simp)) hG
    have key2 := voltage_step_snd_apply c k vs G Z hZ
    have hG' : ∀ a b, c.numNodes + (k + 1) ≤ a ∨ c.numNodes + (k + 1) ≤ b →
        (voltage_step c (G, Z) (k, vs)).1 a b = 0 := by
      intro a b hab
      rw [key1 a b, hG a b (by omega), sumG_eq_zero, add_zero]
      intro u hu
      have hb := vs_stampG_mem hmem hu
      rintro ⟨rfl, rfl⟩
      omega
    have hZ' : ∀ a, c.numNodes + (k + 1) ≤ a →
        (voltage_step c (G, Z) (k, vs)).2 a = 0 := by
      intro a ha
      rw [key2 a, hZ a (by omega), sumZ_eq_zero, add_zero]
      intro u hu
      rw [vs_stampZ] at hu
      simp only [List.mem_cons, List.not_mem_nil, or_false] at hu
      subst hu
      simp only
      omega
    have IH := stamp_voltage_sources_fold c vss (k + 1)
      (voltage_step c (G, Z) (k, vs)).1 (voltage_step c (G, Z) (k, vs)).2
      (fun v hv => hsub v (by simp [hv])) (fun v hv => hloop v (by simp [hv])) hG' hZ'
    rw [List.enumFrom_cons]
    constructor
    · intro a b
      rw [List.foldl_cons, List.flatMap_cons, sumG_append]
      have := IH.1 a b
      rw [Prod.mk.eta] at this
      rw [this, key1 a b]
      ring
    · intro a
      rw [List.foldl_cons, List.flatMap_cons, sumZ_append]
      have := IH.2 a
      rw [Prod.mk.eta] at this
      rw [this, key2 a]
      ring

/-- **Assembly as a sum of stamps**: under the no-self-loop side condition
for voltage sources, the mutating assembly of `_build_mna_system` produces
exactly the spec's additively stamped matrix. -/
theorem build_mna_eq_spec (c : Circuit)
    (hloop : ∀ vs ∈ c.voltageSources, vs.node1 = vs.node2 → vs.node1 = c.referenceNode) :
    (∀ a b, (build_mna_system c).1 a b = sumG (gStamps c) a b)
      ∧ (∀ a, (build_mna_system c).2 a = sumZ (zStamps c) a) := by
  have hfold := stamp_voltage_sources_fold c c.voltageSources 0
    (stamp_conductances c zerosM) (stamp_current_sources c zerosV)
    (fun vs hvs => mem_voltageSources_sub hvs) hloop
    (fun a b hab => stamp_conductances_support c (by omega))
    (fun a ha => stamp_current_sources_support c (by omega))
  have henum : c.voltageSources.enum = List.enumFrom 0 c.voltageSources := rfl
  constructor
  · intro a b
    have h1 : (build_mna_system c).1 a b
        = ((List.enumFrom 0 c.voltageSources).foldl (voltage_step c)
            (stamp_conductances c zerosM, stamp_current_sources c zerosV)).1 a b := by
      rw [build_mna_system, stamp_voltage_sources, henum]
    rw [h1, hfold.1 a b, stamp_conductances_apply]
    rw [gStamps, sumG_append, henum]
    simp [zerosM]
  · intro a
    have h1 : (build_mna_system c).2 a
        = ((List.enumFrom 0 c.voltageSources).foldl (voltage_step c)
            (stamp_conductances c zerosM, stamp_current_sources c zerosV)).2 a := by
      rw [build_mna_system, stamp_voltage_sources, henum]
    rw [h1, hfold.2 a, stamp_current_sources_apply]
    rw [zStamps, sumZ_append, henum]
    simp [zerosV]

/-- C1: amended claim.  For every circuit whose resistor values are nonzero
and in which no voltage source is a self-loop at a non-reference node, the
solver's assembled MNA system `(G, Z)` equals the zero-initialized square
system updated by exactly the spec's stamps (resistor `±1/R` conductance
entries, current-source `∓I` right-hand sides, voltage-source `±1`
couplings between row/column `N+k` and the non-reference terminals, and
`Z[N+k] = V`); terminals at the reference node contribute no entry. -/
theorem C1_mna_assembly_matches_spec_stamps (c : Circuit)
    (_hr : ∀ r ∈ c.resistors, r.value ≠ 0)
    (hloop : ∀ vs ∈ c.voltageSources, vs.node1 = vs.node2 → vs.node1 = c.referenceNode) :
    (∀ a b, (build_mna_system c).1 a b = (spec_mna c).1 a b)
      ∧ (∀ a, (build_mna_system c).2 a = (spec_mna c).2 a) :=
  build_mna_eq_spec c hloop

/-- C1: the claim as frozen is false.  `selfLoopVS` has no resistors (so
every resistor value is vacuously nonzero), yet the assembled matrix
differs from the spec's additive stamping: the constraint row writes
`G[1,0] = 1` then `G[1,0] = -1` (assignment), where the spec's stamps
`+1` and `-1` cancel to `0`. -/
theorem C1_counterexample :
    (∀ r ∈ selfLoopVS.resistors, r.value ≠ 0)
      ∧ (build_mna_system selfLoopVS).1 1 0 = -1
      ∧ (spec_mna selfLoopVS).1 1 0 = 0 := by
  refine ⟨by decide, by decide, ?_⟩
  show sumG (gStamps selfLoopVS) 1 0 = 0
  norm_num [sumG, gStamps, selfLoopVS, vs_stampG, Circuit.resistors, Circuit.voltageSources,
    Circuit.numNodes, Circuit.nonRefNodes, Circuit.nodeList, Circuit.nodeIndex,
    List.flatMap_cons, List.enum]
  decide

/-- C1: witness for the amended claim at `vsrCircuit`. -/
theorem C1_witness :
    (∀ r ∈ vsrCircuit.resistors, r.value ≠ 0)
      ∧ (∀ vs ∈ vsrCircuit.voltageSources,
          vs.node1 = vs.node2 → vs.node1 = vsrCircuit.referenceNode)
      ∧ (build_mna_system vsrCircuit).1 0 1 = (spec_mna vsrCircuit).1 0 1 := by
  refine ⟨by decide, by decide, ?_⟩
  exact (C1_mna_assembly_matches_spec_stamps vsrCircuit (by decide) (by decide)).1 0 1

/-! ### Connected components of the voltage-source graph -/

theorem vsStep_mono (c : Circuit) {S T : Finset ℕ} (h : S ⊆ T) :
    vsStep c S ⊆ vsStep c T := by
  intro x hx
  rw [vsStep, Finset.mem_union] at hx
  rcases hx with hx | hx
  · exact Finset.mem_union_left _ (h hx)
  · refine Finset.mem_union_right _ ?_
    rw [Finset.mem_filter] at hx ⊢
    obtain ⟨hxV, vs, hvs, hcase⟩ := hx
    exact ⟨hxV, vs, hvs, by tauto⟩

theorem subset_vsStep (c : Circuit) (S : Finset ℕ) : S ⊆ vsStep c S :=
  Finset.subset_union_left

theorem vsStep_subset_nodes (c : Circuit) {S : Finset ℕ} (h : S ⊆ c.nodesFinset) :
    vsStep c S ⊆ c.nodesFinset :=
  Finset.union_subset h (Finset.filter_subset _ _)

theorem iterate_vsStep_subset_nodes (c : Circuit) {S : Finset ℕ}
    (h : S ⊆ c.nodesFinset) (j : ℕ) : (vsStep c)^[j] S ⊆ c.nodesFinset := by
  induction j with
  | zero => exact h
  | succ i ih =>
    rw [Function.iterate_succ_apply']
    exact vsStep_subset_nodes c ih

theorem iterate_vsStep_succ_supset (c : Circuit) (S : Finset ℕ) (j : ℕ) :
    (vsStep c)^[j] S ⊆ (vsStep c)^[j + 1] S := by
  rw [Function.iterate_succ_apply']
  exact subset_vsStep c _

theorem iterate_vsStep_mono_idx (c : Circuit) (S : Finset ℕ) {i j : ℕ} (h : i ≤ j) :
    (vsStep c)^[i] S ⊆ (vsStep c)^[j] S := by
  induction j with
  | zero =>
    rw [Nat.le_zero.mp h]
  | succ m ih =>
    rcases Nat.lt_or_ge i (m + 1) with hlt | hge
    · exact (ih (by omega)).trans (iterate_vsStep_succ_supset c S m)
    · rw [Nat.le_antisymm h hge]

theorem iterate_vsStep_mono_set (c : Circuit) {S T : Finset ℕ} (h : S ⊆ T) (j : ℕ) :
    (vsStep c)^[j] S ⊆ (vsStep c)^[j] T := by
  induction j with
  | zero => exact h
  | succ i ih =>
    rw [Function.iterate_succ_apply', Function.iterate_succ_apply']
    exact vsStep_mono c ih

theorem mem_nodeComp_self (c : Circuit) (n : ℕ) : n ∈ nodeComp c n :=
  iterate_vsStep_mono_idx c {n} (Nat.zero_le _) (Finset.mem_singleton_self n)

theorem nodeComp_subset_nodes {c : Circuit} {n : ℕ} (hn : n ∈ c.nodesFinset) :
    nodeComp c n ⊆ c.nodesFinset :=
  iterate_vsStep_subset_nodes c (Finset.singleton_subset_iff.mpr hn) _

/-- The `|nodes|`-fold iteration has reached a fixpoint of the expansion
step (pigeonhole on the strictly increasing chain inside the node set). -/
theorem vsStep_nodeComp_fix {c : Circuit} {n : ℕ} (hn : n ∈ c.nodesFinset) :
    vsStep c (nodeComp c n) = nodeComp c n := by
  set f := vsStep c with hf
  set K := c.nodesFinset.card with hK
  have hsingle : ({n} : Finset ℕ) ⊆ c.nodesFinset := Finset.singleton_subset_iff.mpr hn
  have key : ∃ j, j ≤ K ∧ f^[j + 1] {n} = f^[j] {n} := by
    by_contra hcon
    push_neg at hcon
    have hcard : ∀ j, j ≤ K + 1 → j + 1 ≤ (f^[j] {n}).card := by
      intro j hj
      induction j with
      | zero => simp
      | succ i ih =>
        have hlt : f^[i] {n} ⊂ f^[i + 1] {n} :=
          Finset.ssubset_iff_subset_ne.mpr
            ⟨iterate_vsStep_succ_supset c {n} i, (hcon i (by omega)).symm⟩
        have h1 := Finset.card_lt_card hlt
        have h2 := ih (by omega)
        omega
    have h1 := hcard (K + 1) le_rfl
    have h2 : (f^[K + 1] {n}).card ≤ K :=
      Finset.card_le_card (iterate_vsStep_subset_nodes c hsingle (K + 1))
    omega
  obtain ⟨j, hj, hfix⟩ := key
  have stab : ∀ i, f^[j + i] {n} = f^[j] {n} := by
    intro i
    induction i with
    | zero => rfl
    | succ i ih =>
      have : f^[j + (i + 1)] {n} = f (f^[j + i] {n}) := by
        rw [← Nat.add_assoc, Function.iterate_succ_apply']
      rw [this, ih, ← Function.iterate_succ_apply' f j ({n} : Finset ℕ)]
      exact hfix
  have hcompj : nodeComp c n = f^[j] {n} := by
    have hKj : j + (K - j) = K := by omega
    rw [nodeComp, ← hK, ← hf, ← hKj, stab]
  rw [hcompj, ← Function.iterate_succ_apply' f j ({n} : Finset ℕ)]
  exact hfix

theorem iterate_vsStep_nodeComp_fix {c : Circuit} {n : ℕ} (hn : n ∈ c.nodesFinset)
    (j : ℕ) : (vsStep c)^[j] (nodeComp c n) = nodeComp c n := by
  induction j with
  | zero => rfl
  | succ i ih =>
    rw [Function.iterate_succ_apply', ih, vsStep_nodeComp_fix hn]

theorem nodeComp_subset_of_mem {c : Circuit} {n m : ℕ} (hn : n ∈ c.nodesFinset)
    (hm : m ∈ nodeComp c n) : nodeComp c m ⊆ nodeComp c n := by
  have h1 : ({m} : Finset ℕ) ⊆ nodeComp c n := Finset.singleton_subset_iff.mpr hm
  calc nodeComp c m = (vsStep c)^[c.nodesFinset.card] {m} := rfl
    _ ⊆ (vsStep c)^[c.nodesFinset.card] (nodeComp c n) :=
        iterate_vsStep_mono_set c h1 _
    _ = nodeComp c n := iterate_vsStep_nodeComp_fix hn _

theorem mem_nodeComp_symm {c : Circuit} {n : ℕ} (hn : n ∈ c.nodesFinset) :
    ∀ (j : ℕ) (m : ℕ), m ∈ (vsStep c)^[j] {n} → n ∈ nodeComp c m := by
  intro j
  induction j with
  | zero =>
    intro m hm
    rw [Function.iterate_zero_apply, Finset.mem_singleton] at hm
    rw [hm]
    exact mem_nodeComp_self c n
  | succ i ih =>
    intro m hm
    rw [Function.iterate_succ_apply', vsStep, Finset.mem_union] at hm
    rcases hm with hm | hm
    · exact ih m hm
    · rw [Finset.mem_filter] at hm
      obtain ⟨hmV, vs, hvs, hcase⟩ := hm
      have hK1 : 1 ≤ c.nodesFinset.card :=
        Finset.card_pos.mpr ⟨n, hn⟩
      -- the adjacent node inside the previous layer
      have key : ∃ a, a ∈ (vsStep c)^[i] {n} ∧ a ∈ vsStep c {m} := by
        rcases hcase with ⟨ha, rfl⟩ | ⟨ha, rfl⟩
        · refine ⟨vs.node1, ha, ?_⟩
          rw [vsStep, Finset.mem_union, Finset.mem_filter]
          refine Or.inr ⟨?_, vs, hvs, Or.inr ⟨Finset.mem_singleton_self _, rfl⟩⟩
          exact iterate_vsStep_subset_nodes c
            (Finset.singleton_subset_iff.mpr hn) i ha
        · refine ⟨vs.node2, ha, ?_⟩
          rw [vsStep, Finset.mem_union, Finset.mem_filter]
          refine Or.inr ⟨?_, vs, hvs, Or.inl ⟨Finset.mem_singleton_self _, rfl⟩⟩
          exact iterate_vsStep_subset_nodes c
            (Finset.singleton_subset_iff.mpr hn) i ha
      obtain ⟨a, haprev, hastep⟩ := key
      have hamem : a ∈ nodeComp c m := by
        have h1 : vsStep c {m} ⊆ (vsStep c)^[c.nodesFinset.card] {m} := by
          have := iterate_vsStep_mono_idx c ({m} : Finset ℕ) hK1
          rw [Function.iterate_one] at this
          exact this
        exact h1 hastep
      have hna : n ∈ nodeComp c a := ih a haprev
      exact nodeComp_subset_of_mem hmV hamem hna

theorem nodeComp_eq_of_mem {c : Circuit} {n m : ℕ} (hn : n ∈ c.nodesFinset)
    (hm : m ∈ nodeComp c n) : nodeComp c m = nodeComp c n := by
  have hmV : m ∈ c.nodesFinset := nodeComp_subset_nodes hn hm
  apply Finset.Subset.antisymm (nodeComp_subset_of_mem hn hm)
  exact nodeComp_subset_of_mem hmV (mem_nodeComp_symm hn _ m hm)

/-! ### Supernode bookkeeping -/

theorem mem_find_supernodes {c : Circuit} {sn : Finset ℕ} :
    sn ∈ find_supernodes c
      ↔ (∃ x ∈ c.nodesFinset, nodeComp c x = sn) ∧ 1 < sn.card := by
  rw [find_supernodes, Finset.mem_filter, Finset.mem_image]

theorem supernode_subset_nodes {c : Circuit} {sn : Finset ℕ}
    (h : sn ∈ find_supernodes c) : sn ⊆ c.nodesFinset := by
  obtain ⟨⟨x, hx, rfl⟩, -⟩ := mem_find_supernodes.mp h
  exact nodeComp_subset_nodes hx

theorem nodeComp_eq_of_mem_supernode {c : Circuit} {sn : Finset ℕ} {z : ℕ}
    (h : sn ∈ find_supernodes c) (hz : z ∈ sn) : nodeComp c z = sn := by
  obtain ⟨⟨x, hx, rfl⟩, -⟩ := mem_find_supernodes.mp h
  exact nodeComp_eq_of_mem hx hz

theorem supernodes_disjoint {c : Circuit} {sn sn' : Finset ℕ}
    (h : sn ∈ find_supernodes c) (h' : sn' ∈ find_supernodes c) (hne : sn ≠ sn') :
    ∀ z, z ∈ sn → z ∉ sn' := by
  intro z hz hz'
  exact hne ((nodeComp_eq_of_mem_supernode h hz).symm.trans
    (nodeComp_eq_of_mem_supernode h' hz'))

theorem nonRefNodes_toFinset (c : Circuit) :
    c.nonRefNodes.toFinset = c.nodesFinset.erase c.referenceNode := by
  rw [List.toFinset_eq_of_perm _ _ (nonRefNodes_perm c), List.toFinset_filter,
    Circuit.nodesFinset]
  ext x
  simp only [Finset.mem_filter, Finset.mem_erase, decide_eq_true_eq]
  tauto

theorem numNodes_eq_card (c : Circuit) :
    c.numNodes = (c.nodesFinset.erase c.referenceNode).card := by
  rw [← nonRefNodes_toFinset, List.toFinset_card_of_nodup (nonRefNodes_nodup c)]
  rfl

theorem regular_nodes_length (c : Circuit) :
    (regular_nodes c).length
      = ((c.nodesFinset.erase c.referenceNode).filter
          (fun n => ∀ sn ∈ find_supernodes c, n ∉ sn)).card := by
  rw [regular_nodes,
    ← List.toFinset_card_of_nodup ((nonRefNodes_nodup c).filter _),
    List.toFinset_filter, nonRefNodes_toFinset]
  congr 1
  ext x
  simp

theorem sum_supernode_erase_card (c : Circuit) :
    ∑ sn ∈ find_supernodes c, (sn.erase c.referenceNode).card
      = ((c.nodesFinset.erase c.referenceNode).filter
          (fun n => ¬ ∀ sn ∈ find_supernodes c, n ∉ sn)).card := by
  have hdisj : ∀ sn ∈ find_supernodes c, ∀ sn' ∈ find_supernodes c, sn ≠ sn' →
      Disjoint (sn.erase c.referenceNode) (sn'.erase c.referenceNode) := by
    intro sn hsn sn' hsn' hne
    rw [Finset.disjoint_left]
    intro z hz hz'
    exact supernodes_disjoint hsn hsn' hne z (Finset.mem_of_mem_erase hz)
      (Finset.mem_of_mem_erase hz')
  rw [← Finset.card_biUnion hdisj]
  congr 1
  ext x
  simp only [Finset.mem_biUnion, Finset.mem_filter, Finset.mem_erase, not_forall]
  constructor
  · rintro ⟨sn, hsn, hxe, hx⟩
    exact ⟨⟨hxe, supernode_subset_nodes hsn hx⟩, sn, hsn, not_not_intro hx⟩
  · rintro ⟨⟨hxe, hxV⟩, sn, hsn, hx⟩
    exact ⟨sn, hsn, hxe, not_not.mp hx⟩

/-- C2 (amended): the partition identity the analyzer actually maintains —
every non-reference node is either regular or lies in exactly one
supernode, so `|regular_nodes|` plus the number of non-reference nodes
covered by supernodes equals `|non_reference_nodes|`.  The frozen equality
`|regular_nodes| + |ungrounded_supernodes| = |non_reference_nodes|` fails
as soon as any supernode exists, because a supernode counts one equation
for several covered nodes (and a grounded one counts none). -/
theorem C2_kcl_unknown_partition (c : Circuit) :
    (regular_nodes c).length
        + ∑ sn ∈ find_supernodes c, (sn.erase c.referenceNode).card
      = c.numNodes := by
  rw [regular_nodes_length, sum_supernode_erase_card, numNodes_eq_card]
  exact Finset.filter_card_add_filter_neg_card_eq_card _

/-- C2: the claim as frozen is false.  `singleVS` is a valid circuit
(distinct terminals, reference chosen), yet the analyzer reports no regular
node and no ungrounded supernode while there is one non-reference node:
`0 + 0 ≠ 1`. -/
theorem C2_counterexample :
    (∀ comp ∈ singleVS.components, comp.node1 ≠ comp.node2)
      ∧ (regular_nodes singleVS).length + (ungrounded_supernodes singleVS).card = 0
      ∧ singleVS.numNodes = 1 := by
  refine ⟨by decide, by decide, by decide⟩

/-- C4: the claim as frozen is false on the code.  `VS1(250, 1, 0)` links
node 1 to the reference node 0, so `{0, 1}` is a connected component of
size 2 of the voltage-source graph and hence a (grounded) supernode; the
claim's expected outputs (`supernodes = {{2,4}}`,
`grounded_supernodes = ∅`, `regular nodes {1, 3}`, 3 KCL equations) all
disagree with the analyzer. -/
theorem C4_counterexample :
    find_supernodes supernodeCircuit ≠ {({2, 4} : Finset ℕ)}
      ∧ grounded_supernodes supernodeCircuit ≠ ∅
      ∧ regular_nodes supernodeCircuit ≠ [1, 3]
      ∧ num_kcl_equations supernodeCircuit ≠ 3 := by
  refine ⟨by decide, by decide, by decide, by decide⟩

/-- C4 (amended): what the topology analyzer actually reports on the
scenario-5 circuit: supernodes `{0,1}` (grounded) and `{2,4}`
(ungrounded), regular node 3 only, `2` KCL equations and `2` constraint
equations. -/
theorem C4_supernode_analysis :
    find_supernodes supernodeCircuit = {({0, 1} : Finset ℕ), ({2, 4} : Finset ℕ)}
      ∧ grounded_supernodes supernodeCircuit = {({0, 1} : Finset ℕ)}
      ∧ ungrounded_supernodes supernodeCircuit = {({2, 4} : Finset ℕ)}
      ∧ regular_nodes supernodeCircuit = [3]
      ∧ num_kcl_equations supernodeCircuit = 2
      ∧ num_constraint_equations supernodeCircuit = 2 := by
  refine ⟨by decide, by decide, by decide, by decide, by decide, by decide⟩

/-- C3: whenever the assembled MNA matrix is singular (and assembly itself
does not fail on a zero resistor first), `solve` returns the error
response with the `"Singular matrix"` message and the suggestion field; no
solution value (voltages, currents, powers) is produced. -/
theorem C3_singular_matrix_error (c : Circuit)
    (hr : ∀ r ∈ c.resistors, r.value ≠ 0)
    (hdet : (GMat c).det = 0) :
    solve c = .error ⟨.singularMatrix, .checkConnectivity⟩ := by
  rw [solve, if_neg, (linSolve_eq_none_iff (GMat c) (ZVec c)).mpr hdet]
  simp only [List.any_eq_true, decide_eq_true_eq, not_exists, not_and]
  exact fun r hrm => hr r hrm

/-- C3: witness — the parallel-conflicting-sources netlist produces a
singular `G` (its two constraint rows coincide) and the solver reports the
singular-matrix error. -/
theorem C3_witness :
    (∀ r ∈ parallelVS.resistors, r.value ≠ 0)
      ∧ (GMat parallelVS).det = 0
      ∧ solve parallelVS = .error ⟨.singularMatrix, .checkConnectivity⟩ := by
  have h1 : ∀ r ∈ parallelVS.resistors, r.value ≠ 0 := by decide
  have h2 : (GMat parallelVS).det = 0 := by
    apply Matrix.det_zero_of_row_eq
      (i := (⟨1, by decide⟩ : Fin parallelVS.size))
      (j := (⟨2, by decide⟩ : Fin parallelVS.size))
    · decide
    · decide
  exact ⟨h1, h2, C3_singular_matrix_error parallelVS h1 h2⟩

/-- C7: the claim as frozen is false: `CircuitModel.add_component` has no
self-loop check and no error path; a resistor with `node1 = node2 = 1` is
inserted into the empty model and its node enters the node set. -/
theorem C7_counterexample :
    (add_component emptyModel ⟨0, CompKind.resistor, 100, 1, 1⟩).components
        = [⟨0, CompKind.resistor, 100, 1, 1⟩]
      ∧ (add_component emptyModel ⟨0, CompKind.resistor, 100, 1, 1⟩).nodes = {1} := by
  refine ⟨rfl, by decide⟩

/-- C7 (amended): adding a component whose two terminals coincide
*succeeds*: the component is appended to the store and its (single) node
joins the node set.  No `SelfLoop` rejection exists anywhere on the ingest
path. -/
theorem C7_selfloop_inserted (m : CircuitModelState) (comp : Component)
    (h : comp.node1 = comp.node2) :
    (add_component m comp).components = m.components ++ [comp]
      ∧ (add_component m comp).nodes = insert comp.node1 m.nodes := by
  refine ⟨rfl, ?_⟩
  rw [add_component]
  ext x
  simp [← h]
  tauto

/-- C7: witness for the amended claim. -/
theorem C7_witness :
    ((⟨0, CompKind.resistor, 100, 1, 1⟩ : Component).node1
        = (⟨0, CompKind.resistor, 100, 1, 1⟩ : Component).node2)
      ∧ (add_component emptyModel ⟨0, CompKind.resistor, 100, 1, 1⟩).components
          = emptyModel.components ++ [⟨0, CompKind.resistor, 100, 1, 1⟩] :=
  ⟨rfl, (C7_selfloop_inserted emptyModel ⟨0, CompKind.resistor, 100, 1, 1⟩ rfl).1⟩

/-- C8: the claim as frozen is false: a resistor record with value `0`
passes ingest (no `NonPositiveResistance` check exists), and the solve that
is then attempted on it fails with the *generic* solver-error response
(`ZeroDivisionError` from `1.0 / value` caught by `except Exception`), not
with an ingest rejection. -/
theorem C8_counterexample :
    build_circuit_model [⟨some .R, some (.num 0), some (.num 1), some (.num 0)⟩]
        = .ok ⟨[⟨0, CompKind.resistor, 0, 1, 0⟩], {1, 0}, 0⟩
      ∧ solve ⟨[⟨0, CompKind.resistor, 0, 1, 0⟩], 0⟩
          = .error ⟨.solverError, .checkConnectivity⟩ := by
  refine ⟨by decide, by decide⟩

/-- C8 (amended): ingest applies no positivity (or nonzero) check to
resistor values: a complete resistor record with *any* numeric value `v`,
in particular `v ≤ 0`, is accepted into the model; when `v = 0` the
subsequent solve returns the generic `"Solver error"` response (division by
zero during stamping) rather than a structured `NonPositiveResistance`
ingest error, and a numeric solve *is* attempted for `v < 0`. -/
theorem C8_nonpositive_resistance_accepted (v : ℚ) (hv : v ≤ 0) :
    build_circuit_model [⟨some .R, some (.num v), some (.num 1), some (.num 0)⟩]
        = .ok ⟨[⟨0, CompKind.resistor, v, 1, 0⟩], insert 0 (∅ ∪ {1, 0}), 0⟩
      ∧ (v = 0 → solve ⟨[⟨0, CompKind.resistor, v, 1, 0⟩], 0⟩
          = .error ⟨.solverError, .checkConnectivity⟩) := by
  constructor
  · rfl
  · rintro rfl
    rw [solve, if_pos]
    simp [Circuit.resistors]

/-- C8: witness for the amended claim at `v = 0`. -/
theorem C8_witness :
    (0 : ℚ) ≤ 0
      ∧ (build_circuit_model [⟨some .R, some (.num 0), some (.num 1), some (.num 0)⟩]
          = .ok ⟨[⟨0, CompKind.resistor, 0, 1, 0⟩], insert 0 (∅ ∪ {1, 0}), 0⟩
        ∧ ((0 : ℚ) = 0 → solve ⟨[⟨0, CompKind.resistor, 0, 1, 0⟩], 0⟩
            = .error ⟨.solverError, .checkConnectivity⟩)) :=
  ⟨le_refl 0, C8_nonpositive_resistance_accepted 0 (le_refl 0)⟩

/-- C9: divergence between the entry point and the component model.  A
record carrying the textual token `GND` as `nodeA` is *rejected* by
`_build_circuit_model` (its `int(comp_data["nodeA"])` raises `ValueError`
before `Component._parse_node` can run), even though `Component._parse_node`
— the function the spec describes — maps `GND` to node `0`. -/
theorem C9_gnd_rejected_at_entry :
    build_circuit_model [⟨some .R, some (.num 1000), some .gnd, some (.num 1)⟩]
        = .error (.invalidNode 0)
      ∧ parse_node .gnd = .ok 0 :=
  ⟨rfl, rfl⟩

theorem parse_term_ok {c : Circuit} {row : ℕ} {GZ : MatF × VecF} {t : EqTerm}
    (ht : termNoZeroRes t) : ∃ GZ', parse_term c row GZ t = .ok GZ' := by
  cases t with
  | resistorGnd node v =>
    rw [parse_term, if_neg ht]
    split_ifs <;> exact ⟨_, rfl⟩
  | resistorPair n m v => exact ⟨GZ, rfl⟩
  | currentLeaving v => exact ⟨_, rfl⟩
  | currentEntering v => exact ⟨GZ, rfl⟩

theorem parse_terms_ok {c : Circuit} {row : ℕ} :
    ∀ (terms : List EqTerm) (GZ : MatF × VecF),
      (∀ t ∈ terms, termNoZeroRes t) →
      ∃ GZ', parse_terms c row terms GZ = .ok GZ'
  | [], GZ, _ => ⟨GZ, rfl⟩
  | t :: ts, GZ, h => by
    obtain ⟨GZ1, h1⟩ := @parse_term_ok c row GZ t (h t (by simp))
    obtain ⟨GZ2, h2⟩ := parse_terms_ok ts GZ1 (fun u hu => h u (by simp [hu]))
    refine ⟨GZ2, ?_⟩
    rw [parse_terms, h1]
    exact h2

theorem mem_components_connected_to {c : Circuit} {n : ℕ} {p : Component × ℕ}
    (hp : p ∈ components_connected_to c n) : p.1 ∈ c.components := by
  rw [components_connected_to] at hp
  simp only [List.mem_flatMap, List.mem_map, List.mem_filter] at hp
  obtain ⟨m, -, comp, ⟨hcm, -⟩, rfl⟩ := hp
  exact hcm

/-- Membership under a term-collecting `foldr` whose step conses zero or
more good terms. -/
theorem foldr_mem_cases {α β : Type} (step : α → List β → List β) (P : β → Prop)
    (l : List α)
    (h : ∀ x ∈ l, ∀ acc t, t ∈ step x acc → t ∈ acc ∨ P t) :
    ∀ acc t, t ∈ l.foldr step acc → t ∈ acc ∨ P t := by
  induction l with
  | nil => intro acc t ht; exact Or.inl ht
  | cons x l ih =>
    intro acc t ht
    rw [List.foldr_cons] at ht
    rcases h x (by simp) _ t ht with ht' | hP
    · exact ih (fun y hy => h y (by simp [hy])) acc t ht'
    · exact Or.inr hP

theorem build_resistor_term_good {c : Circuit} {r : Component} {node nb : ℕ}
    (hr : ∀ r' ∈ c.resistors, r'.value ≠ 0)
    (hmem : r ∈ c.components) (hkind : r.kind = .resistor) :
    termNoZeroRes (build_resistor_term c r node nb) := by
  rw [build_resistor_term]
  split_ifs
  · exact hr r (List.mem_filter.mpr ⟨hmem, by simp [hkind]⟩)
  · trivial

theorem node_equation_terms_good {c : Circuit} {n : ℕ}
    (hr : ∀ r ∈ c.resistors, r.value ≠ 0) :
    ∀ t ∈ node_equation_terms c n, termNoZeroRes t := by
  intro t ht
  rw [node_equation_terms] at ht
  have := foldr_mem_cases _ termNoZeroRes (components_connected_to c n) ?_ [] t ht
  · rcases this with h | h
    · simp at h
    · exact h
  · intro p hp acc t' ht'
    have hpc := mem_components_connected_to hp
    revert ht'
    cases hk : p.1.kind <;> simp only
    · intro ht'
      rcases List.mem_cons.mp ht' with rfl | h
      · exact Or.inr (build_resistor_term_good hr hpc hk)
      · exact Or.inl h
    · exact fun ht' => Or.inl ht'
    · intro ht'
      split_ifs at ht' <;>
        first
          | (rcases List.mem_cons.mp ht' with rfl | h
             · exact Or.inr trivial
             · exact Or.inl h)
          | exact Or.inl ht'

theorem supernode_equation_terms_good {c : Circuit} {sn : Finset ℕ}
    (hr : ∀ r ∈ c.resistors, r.value ≠ 0) :
    ∀ t ∈ supernode_equation_terms c sn, termNoZeroRes t := by
  intro t ht
  rw [supernode_equation_terms] at ht
  have := foldr_mem_cases _ termNoZeroRes
    (List.insertionSort (· ≤ ·) (c.nodeList.filter fun n => n ∈ sn)) ?_ [] t ht
  · rcases this with h | h
    · simp at h
    · exact h
  · intro n hn acc t' ht'
    have := foldr_mem_cases _ termNoZeroRes (components_connected_to c n) ?_ acc t' ht'
    · exact this
    · intro p hp acc' t'' ht''
      have hpc := mem_components_connected_to hp
      revert ht''
      cases hk : p.1.kind <;> simp only
      · intro ht''
        split_ifs at ht''
        · exact Or.inl ht''
        · rcases List.mem_cons.mp ht'' with rfl | h
          · exact Or.inr (build_resistor_term_good hr hpc hk)
          · exact Or.inl h
      · exact fun ht'' => Or.inl ht''
      · intro ht''
        split_ifs at ht'' <;>
          first
            | (rcases List.mem_cons.mp ht'' with rfl | h
               · exact Or.inr trivial
               · exact Or.inl h)
            | exact Or.inl ht''

theorem mem_build_regular_node_equations {c : Circuit} {eq : EquationStr}
    (heq : eq ∈ build_regular_node_equations c) :
    ∃ n, eq = .nodeKCL n (node_equation_terms c n) := by
  rw [build_regular_node_equations] at heq
  have := foldr_mem_cases _ (fun e => ∃ n, e = .nodeKCL n (node_equation_terms c n))
    c.nonRefNodes ?_ [] eq heq
  · rcases this with h | h
    · simp at h
    · exact h
  · intro n hn acc e he
    simp only at he
    split_ifs at he
    · exact Or.inl he
    · exact Or.inl he
    · rcases List.mem_cons.mp he with rfl | h
      · exact Or.inr ⟨n, rfl⟩
      · exact Or.inl h

theorem mem_build_ungrounded_supernode_equations {c : Circuit} {eq : EquationStr}
    (heq : eq ∈ build_ungrounded_supernode_equations c) :
    ∃ sn ns, eq = .supernodeKCL ns (supernode_equation_terms c sn) := by
  rw [build_ungrounded_supernode_equations] at heq
  have := foldr_mem_cases _
    (fun e => ∃ sn ns, e = .supernodeKCL ns (supernode_equation_terms c sn))
    (supernode_list c) ?_ [] eq heq
  · rcases this with h | h
    · simp at h
    · exact h
  · intro sn hsn acc e he
    simp only at he
    split_ifs at he
    · exact Or.inl he
    · exact Or.inl he
    · rcases List.mem_cons.mp he with rfl | h
      · exact Or.inr ⟨sn, _, rfl⟩
      · exact Or.inl h

theorem mem_build_voltage_source_constraints {c : Circuit} {eq : EquationStr}
    (heq : eq ∈ build_voltage_source_constraints c) :
    ∃ f, eq = .constraint f := by
  rw [build_voltage_source_constraints] at heq
  obtain ⟨vs, -, rfl⟩ := List.mem_map.mp heq
  split_ifs <;> exact ⟨_, rfl⟩

theorem process_equation_node_ok (c : Circuit) (GZ : MatF × VecF) (n : ℕ)
    (terms : List EqTerm) (hterms : ∀ t ∈ terms, termNoZeroRes t) :
    ∃ GZ', process_equation c GZ (.nodeKCL n terms) = .ok GZ' := by
  by_cases h : n ∈ c.nonRefNodes
  · have he : process_equation c GZ (.nodeKCL n terms)
        = parse_terms c (c.nodeIndex n) terms GZ := by
      simp [process_equation, h]
    rw [he]
    exact parse_terms_ok terms GZ hterms
  · exact ⟨GZ, by simp [process_equation, h]⟩

theorem process_equation_supernode_ok (c : Circuit) (GZ : MatF × VecF) (ns : List ℕ)
    (terms : List EqTerm) (hterms : ∀ t ∈ terms, termNoZeroRes t) :
    ∃ GZ', process_equation c GZ (.supernodeKCL ns terms) = .ok GZ' := by
  cases ns with
  | nil => exact ⟨GZ, rfl⟩
  | cons n0 ns =>
    by_cases h : n0 ∈ c.nonRefNodes
    · have he : process_equation c GZ (.supernodeKCL (n0 :: ns) terms)
          = parse_terms c (c.nodeIndex n0) terms GZ := by
        simp [process_equation, h]
      rw [he]
      exact parse_terms_ok terms GZ hterms
    · exact ⟨GZ, by simp [process_equation, h]⟩

/-- Once a constraint equation is in the list and all KCL equations parse
cleanly, the re-parsing fold ends in the `TypeError`. -/
theorem foldlM_process_error (c : Circuit) :
    ∀ (eqs : List EquationStr) (GZ : MatF × VecF),
      (∀ eq ∈ eqs, (∃ f, eq = .constraint f)
          ∨ (∃ n terms, eq = .nodeKCL n terms ∧ ∀ t ∈ terms, termNoZeroRes t)
          ∨ (∃ ns terms, eq = .supernodeKCL ns terms ∧ ∀ t ∈ terms, termNoZeroRes t)) →
      (∃ f, EquationStr.constraint f ∈ eqs) →
      eqs.foldlM (process_equation c) GZ = .error .typeErrorCountKcl
  | [], GZ, _, hex => by simp at hex
  | eq :: eqs, GZ, hgood, hex => by
    rcases hgood eq (by simp) with ⟨f, rfl⟩ | ⟨n, terms, rfl, hterms⟩
      | ⟨ns, terms, rfl, hterms⟩
    · rfl
    · obtain ⟨GZ', hGZ'⟩ := process_equation_node_ok c GZ n terms hterms
      have hex' : ∃ f, EquationStr.constraint f ∈ eqs := by
        obtain ⟨f, hf⟩ := hex
        rcases List.mem_cons.mp hf with heq | h
        · exact absurd heq.symm (by simp)
        · exact ⟨f, h⟩
      have := foldlM_process_error c eqs GZ'
        (fun e he => hgood e (by simp [he])) hex'
      rw [List.foldlM_cons, hGZ']
      exact this
    · obtain ⟨GZ', hGZ'⟩ := process_equation_supernode_ok c GZ ns terms hterms
      have hex' : ∃ f, EquationStr.constraint f ∈ eqs := by
        obtain ⟨f, hf⟩ := hex
        rcases List.mem_cons.mp hf with heq | h
        · exact absurd heq.symm (by simp)
        · exact ⟨f, h⟩
      have := foldlM_process_error c eqs GZ'
        (fun e he => hgood e (by simp [he])) hex'
      rw [List.foldlM_cons, hGZ']
      exact this

/-- C10 (amended): for every circuit with at least one voltage source
(and nonzero resistor values, so that KCL-term parsing itself does not
divide by zero), the secondary assembly path —
`MatrixBuilder.build_matrices_from_equations` applied to
`EquationBuilder.build_equations` — does not terminate normally: the first
voltage-source constraint string raises `TypeError`, because
`_process_constraint_equation` calls `self._count_kcl_equations()` without
its required `equations` argument.  In particular it never reproduces the
direct path's matrices for such circuits. -/
theorem C10_secondary_path_type_error (c : Circuit)
    (hvs : 0 < c.numVS) (hr : ∀ r ∈ c.resistors, r.value ≠ 0) :
    build_matrices_from_equations c (build_equations c)
      = .error .typeErrorCountKcl := by
  rw [build_matrices_from_equations]
  apply foldlM_process_error
  · intro eq heq
    rw [build_equations] at heq
    rcases List.mem_append.mp heq with h | h
    · rcases List.mem_append.mp h with h | h
      · obtain ⟨n, rfl⟩ := mem_build_regular_node_equations h
        exact Or.inr (Or.inl ⟨n, _, rfl, node_equation_terms_good hr⟩)
      · obtain ⟨sn, ns, rfl⟩ := mem_build_ungrounded_supernode_equations h
        exact Or.inr (Or.inr ⟨ns, _, rfl, supernode_equation_terms_good hr⟩)
    · obtain ⟨f, rfl⟩ := mem_build_voltage_source_constraints h
      exact Or.inl ⟨f, rfl⟩
  · have hne : c.voltageSources ≠ [] := by
      intro h
      rw [Circuit.numVS, h] at hvs
      simp at hvs
    obtain ⟨vs, hvs'⟩ := List.exists_mem_of_ne_nil _ hne
    have hmem : (if vs.node1 = c.referenceNode then
          EquationStr.constraint (.fixNeg vs.node2 vs.value)
        else if vs.node2 = c.referenceNode then
          EquationStr.constraint (.fixPos vs.node1 vs.value)
        else EquationStr.constraint (.diff vs.node1 vs.node2 vs.value))
        ∈ build_voltage_source_constraints c := by
      rw [build_voltage_source_constraints]
      exact List.mem_map.mpr ⟨vs, hvs', rfl⟩
    have hsub : build_voltage_source_constraints c ⊆ build_equations c := by
      intro e he
      rw [build_equations]
      exact List.mem_append.mpr (Or.inr he)
    split_ifs at hmem <;> exact ⟨_, hsub hmem⟩

/-- C10: the claim as frozen is false at a concrete input: on the circuit
`VS(10,1,0)`, `R(1000,1,0)` the secondary path raises `TypeError` on the
constraint equation `V_1 = 10` instead of terminating with matrices. -/
theorem C10_counterexample :
    build_matrices_from_equations vsrCircuit (build_equations vsrCircuit)
      = .error .typeErrorCountKcl := by
  rfl

/-- C10: witness for the amended claim at the same circuit. -/
theorem C10_witness :
    0 < vsrCircuit.numVS
      ∧ (∀ r ∈ vsrCircuit.resistors, r.value ≠ 0)
      ∧ build_matrices_from_equations vsrCircuit (build_equations vsrCircuit)
          = .error .typeErrorCountKcl :=
  ⟨by decide, by decide,
    C10_secondary_path_type_error vsrCircuit (by decide) (by decide)⟩

theorem lookup_enum_map (f : ℕ → ℚ) :
    ∀ (l : List ℕ) (k0 : ℕ) (n : ℕ), l.Nodup → n ∈ l →
      ((List.enumFrom k0 l).map fun p => (p.2, f p.1)).lookup n
        = some (f (k0 + l.indexOf n))
  | [], _, n, _, hn => by simp at hn
  | a :: l, k0, n, hnd, hn => by
    rw [List.enumFrom_cons, List.map_cons, List.lookup_cons]
    by_cases hna : n = a
    · subst hna
      simp [List.indexOf_cons_self]
    · have hbeq : (n == a) = false := by simp [hna]
      rw [hbeq]
      have hn' : n ∈ l := by
        rcases List.mem_cons.mp hn with h | h
        · exact absurd h hna
        · exact h
      rw [lookup_enum_map f l (k0 + 1) n (List.nodup_cons.mp hnd).2 hn']
      have : (a :: l).indexOf n = l.indexOf n + 1 := by
        rw [List.indexOf_cons, cond_eq_if]
        simp [beq_iff_eq, Ne.symm hna, hna]
      rw [this, show k0 + 1 + l.indexOf n = k0 + (l.indexOf n + 1) from by omega]

/-- Looking a terminal up in the packaged voltages dict gives `voltFun`. -/
theorem voltages_lookup (c : Circuit) (x : ℕ → ℚ) {n : ℕ} (hn : n ∈ c.nodeList) :
    ((((c.referenceNode, (0 : ℚ)) ::
        c.nonRefNodes.enum.map fun p => (p.2, x p.1)).lookup n).getD 0)
      = voltFun c x n := by
  rw [List.lookup_cons, voltFun]
  by_cases href : n = c.referenceNode
  · subst href
    simp
  · have hbeq : (n == c.referenceNode) = false := by simp [href]
    rw [hbeq, if_neg href]
    have hmem : n ∈ c.nonRefNodes := mem_nonRefNodes.mpr ⟨hn, href⟩
    have := lookup_enum_map x c.nonRefNodes 0 n (nonRefNodes_nodup c) hmem
    rw [show c.nonRefNodes.enum = List.enumFrom 0 c.nonRefNodes from rfl, this]
    simp [Circuit.nodeIndex]

/-- `find?` over the enumerated voltage-source list, matching by id,
returns each pair of the enumeration itself when ids are unique. -/
theorem find_enumFrom_by_id :
    ∀ (l : List Component) (k0 k : ℕ) (vs : Component), (l.map (·.id)).Nodup →
      (k, vs) ∈ List.enumFrom k0 l →
      (List.enumFrom k0 l).find? (fun p => decide (p.2.id = vs.id)) = some (k, vs)
  | [], _, _, _, _, hmem => by simp at hmem
  | a :: l, k0, k, vs, hnd, hmem => by
    rw [List.enumFrom_cons] at hmem ⊢
    rcases List.mem_cons.mp hmem with heq | hmem'
    · rw [← heq]
      apply List.find?_cons_of_pos
      simp
    · have hvl : vs ∈ l := List.snd_mem_of_mem_enumFrom hmem'
      have hne : a.id ≠ vs.id := by
        intro h
        have h1 : a.id ∉ l.map (·.id) := by
          rw [List.map_cons, List.nodup_cons] at hnd
          exact hnd.1
        exact h1 (h ▸ List.mem_map.mpr ⟨vs, hvl, rfl⟩)
      rw [List.find?_cons_of_neg _ (by simp [hne])]
      exact find_enumFrom_by_id l (k0 + 1) k vs
        (by rw [List.map_cons, List.nodup_cons] at hnd; exact hnd.2) hmem'

/-- A sum over all components splits into the sums over the three kind
filters. -/
theorem sum_map_filter_kinds (f : Component → ℚ) :
    ∀ l : List Component,
      (l.map f).sum
        = ((l.filter fun comp => comp.kind = CompKind.resistor).map f).sum
          + ((l.filter fun comp => comp.kind = CompKind.voltageSource).map f).sum
          + ((l.filter fun comp => comp.kind = CompKind.currentSource).map f).sum
  | [] => by simp
  | comp :: l => by
    have ih := sum_map_filter_kinds f l
    cases hk : comp.kind <;>
      simp [List.filter_cons, hk, ih] <;> ring

/-- Summing a mapped function over a `flatMap`. -/
theorem sum_map_flatMap {α β : Type} (f : α → List β) (g : β → ℚ) :
    ∀ l : List α,
      ((l.flatMap f).map g).sum = (l.map fun x => ((f x).map g).sum).sum
  | [] => by simp
  | x :: l => by
    rw [List.flatMap_cons, List.map_append, List.sum_append, List.map_cons,
      List.sum_cons, sum_map_flatMap f g l]

theorem sum_single_bilinear (x : ℕ → ℚ) (Nn Sz r c' : ℕ) (v : ℚ) :
    (∑ i ∈ Finset.range Nn, x i * ∑ j ∈ Finset.range Sz,
        (if i = r ∧ j = c' then v else 0) * x j)
      = if r < Nn ∧ c' < Sz then x r * v * x c' else 0 := by
  have hin : ∀ i, (∑ j ∈ Finset.range Sz, (if i = r ∧ j = c' then v else 0) * x j)
      = if i = r ∧ c' < Sz then v * x c' else 0 := by
    intro i
    by_cases hi : i = r
    · rw [show (∑ j ∈ Finset.range Sz, (if i = r ∧ j = c' then v else 0) * x j)
          = ∑ j ∈ Finset.range Sz, (if j = c' then v * x j else 0) from
        Finset.sum_congr rfl fun j _ => by by_cases hj : j = c' <;> simp [hj, hi]]
      rw [Finset.sum_ite_eq' (Finset.range Sz) c' (fun j => v * x j)]
      simp [Finset.mem_range, hi]
    · rw [Finset.sum_eq_zero fun j _ => by simp [hi], if_neg (by tauto)]
  calc (∑ i ∈ Finset.range Nn, x i * ∑ j ∈ Finset.range Sz,
        (if i = r ∧ j = c' then v else 0) * x j)
      = ∑ i ∈ Finset.range Nn, (if i = r ∧ c' < Sz then x i * (v * x c') else 0) := by
        refine Finset.sum_congr rfl fun i _ => ?_
        rw [hin i]
        by_cases h : i = r ∧ c' < Sz <;> simp [h]
    _ = if r < Nn ∧ c' < Sz then x r * v * x c' else 0 := by
        by_cases hc : c' < Sz
        · rw [show (∑ i ∈ Finset.range Nn, if i = r ∧ c' < Sz then x i * (v * x c') else 0)
              = ∑ i ∈ Finset.range Nn, if i = r then x i * (v * x c') else 0 from
            Finset.sum_congr rfl fun i _ => by by_cases h : i = r <;> simp [h, hc]]
          rw [Finset.sum_ite_eq' (Finset.range Nn) r (fun i => x i * (v * x c'))]
          simp only [Finset.mem_range]
          by_cases hrn : r < Nn <;> simp [hrn, hc] <;> ring
        · rw [Finset.sum_eq_zero fun i _ => by simp [hc], if_neg (by tauto)]

theorem double_sum_sumG (x : ℕ → ℚ) (Nn Sz : ℕ) :
    ∀ us : List (ℕ × ℕ × ℚ),
      (∑ i ∈ Finset.range Nn, x i * ∑ j ∈ Finset.range Sz, sumG us i j * x j)
        = (us.map fun u =>
            if u.1 < Nn ∧ u.2.1 < Sz then x u.1 * u.2.2 * x u.2.1 else 0).sum
  | [] => by simp [sumG]
  | u :: us => by
    have ih := double_sum_sumG x Nn Sz us
    have hsplit : ∀ i, (∑ j ∈ Finset.range Sz, sumG (u :: us) i j * x j)
        = (∑ j ∈ Finset.range Sz, (if i = u.1 ∧ j = u.2.1 then u.2.2 else 0) * x j)
          + ∑ j ∈ Finset.range Sz, sumG us i j * x j := by
      intro i
      rw [← Finset.sum_add_distrib]
      refine Finset.sum_congr rfl fun j _ => ?_
      rw [sumG_cons]
      ring
    calc (∑ i ∈ Finset.range Nn, x i * ∑ j ∈ Finset.range Sz, sumG (u :: us) i j * x j)
        = (∑ i ∈ Finset.range Nn, x i * ∑ j ∈ Finset.range Sz,
            (if i = u.1 ∧ j = u.2.1 then u.2.2 else 0) * x j)
          + ∑ i ∈ Finset.range Nn, x i * ∑ j ∈ Finset.range Sz, sumG us i j * x j := by
          rw [← Finset.sum_add_distrib]
          refine Finset.sum_congr rfl fun i _ => ?_
          rw [hsplit i]
          ring
      _ = _ := by
          rw [sum_single_bilinear, ih, List.map_cons, List.sum_cons]

theorem double_sum_sumZ (x : ℕ → ℚ) (Nn : ℕ) :
    ∀ us : List (ℕ × ℚ),
      (∑ i ∈ Finset.range Nn, x i * sumZ us i)
        = (us.map fun u => if u.1 < Nn then x u.1 * u.2 else 0).sum
  | [] => by simp [sumZ]
  | u :: us => by
    have ih := double_sum_sumZ x Nn us
    calc (∑ i ∈ Finset.range Nn, x i * sumZ (u :: us) i)
        = (∑ i ∈ Finset.range Nn, x i * (if i = u.1 then u.2 else 0))
          + ∑ i ∈ Finset.range Nn, x i * sumZ us i := by
          rw [← Finset.sum_add_distrib]
          refine Finset.sum_congr rfl fun i _ => ?_
          rw [sumZ_cons]
          ring
      _ = _ := by
          rw [show (∑ i ∈ Finset.range Nn, x i * (if i = u.1 then u.2 else 0))
              = ∑ i ∈ Finset.range Nn, (if i = u.1 then x i * u.2 else 0) from
            Finset.sum_congr rfl fun i _ => by by_cases h : i = u.1 <;> simp [h]]
          rw [Finset.sum_ite_eq' (Finset.range Nn) u.1 (fun i => x i * u.2)]
          rw [ih, List.map_cons, List.sum_cons]
          simp [Finset.mem_range]

/-- The bilinear contribution of a resistor's spec stamps is exactly the
power the solver reports for that resistor. -/
theorem resistor_stamp_power (c : Circuit) (x : ℕ → ℚ) {r : Component}
    (hr : r ∈ c.resistors) :
    ((resistor_stamp c r).map fun u =>
        if u.1 < c.numNodes ∧ u.2.1 < c.size then x u.1 * u.2.2 * x u.2.1 else 0).sum
      = (voltFun c x r.node1 - voltFun c x r.node2)
          * ((voltFun c x r.node1 - voltFun c x r.node2) / r.value) := by
  have hc := mem_resistors_sub hr
  have hNs : c.numNodes ≤ c.size := Nat.le_add_right _ _
  rw [resistor_stamp]
  split_ifs with h1 h2 h3
  · have hi := nodeIndex_lt (terminal1_mem_nonRefNodes hc h1.1)
    have hj := nodeIndex_lt (terminal2_mem_nonRefNodes hc h1.2)
    have hiS : c.nodeIndex r.node1 < c.size := lt_of_lt_of_le hi hNs
    have hjS : c.nodeIndex r.node2 < c.size := lt_of_lt_of_le hj hNs
    simp only [voltFun, List.map_cons, List.sum_cons, List.map_nil, List.sum_nil,
      if_neg h1.1, if_neg h1.2]
    rw [if_pos ⟨hi, hiS⟩, if_pos ⟨hj, hjS⟩, if_pos ⟨hi, hjS⟩, if_pos ⟨hj, hiS⟩]
    ring
  · have hi := nodeIndex_lt (terminal1_mem_nonRefNodes hc h2.1)
    have hiS : c.nodeIndex r.node1 < c.size := lt_of_lt_of_le hi hNs
    simp only [voltFun, List.map_cons, List.sum_cons, List.map_nil, List.sum_nil,
      if_neg h2.1, if_pos h2.2]
    rw [if_pos ⟨hi, hiS⟩]
    ring
  · have hj := nodeIndex_lt (terminal2_mem_nonRefNodes hc h3.1)
    have hjS : c.nodeIndex r.node2 < c.size := lt_of_lt_of_le hj hNs
    simp only [voltFun, List.map_cons, List.sum_cons, List.map_nil, List.sum_nil,
      if_neg h3.1, if_pos h3.2]
    rw [if_pos ⟨hj, hjS⟩]
    ring
  · have hn1 : r.node1 = c.referenceNode := by tauto
    have hn2 : r.node2 = c.referenceNode := by tauto
    rw [hn1, hn2, sub_self]
    simp

/-- The (negated) contribution of a current source's right-hand-side spec
stamps is exactly the power the solver reports for that source. -/
theorem current_stamp_power (c : Circuit) (x : ℕ → ℚ) {cs : Component}
    (h : cs ∈ c.currentSources) :
    ((current_stamp c cs).map fun u =>
        if u.1 < c.numNodes then x u.1 * u.2 else 0).sum
      = -((voltFun c x cs.node1 - voltFun c x cs.node2) * cs.value) := by
  have hc := mem_currentSources_sub h
  rw [current_stamp]
  simp only [voltFun]
  by_cases hn1 : cs.node1 ≠ c.referenceNode <;> by_cases hn2 : cs.node2 ≠ c.referenceNode
  · have hi := nodeIndex_lt (terminal1_mem_nonRefNodes hc hn1)
    have hj := nodeIndex_lt (terminal2_mem_nonRefNodes hc hn2)
    simp only [if_pos hn1, if_pos hn2, if_neg hn1, if_neg hn2, List.map_append,
      List.sum_append, List.map_cons, List.sum_cons, List.map_nil, List.sum_nil]
    rw [if_pos hi, if_pos hj]
    ring
  · rw [not_not] at hn2
    have hi := nodeIndex_lt (terminal1_mem_nonRefNodes hc hn1)
    simp only [if_pos hn1, if_neg (not_not_intro hn2), if_neg hn1, if_pos hn2,
      List.append_nil, List.map_cons, List.sum_cons, List.map_nil, List.sum_nil]
    rw [if_pos hi]
    ring
  · rw [not_not] at hn1
    have hj := nodeIndex_lt (terminal2_mem_nonRefNodes hc hn2)
    simp only [if_neg (not_not_intro hn1), if_pos hn2, if_pos hn1, if_neg hn2,
      List.nil_append, List.map_cons, List.sum_cons, List.map_nil, List.sum_nil]
    rw [if_pos hj]
    ring
  · rw [not_not] at hn1 hn2
    simp [hn1, hn2]

/-- The bilinear contribution of the `k`-th voltage source's matrix stamps
is exactly the power the solver reports for it: its branch voltage times
the branch-current unknown `x (N + k)`. -/
theorem vs_stampG_power (c : Circuit) (x : ℕ → ℚ) {k : ℕ} {vs : Component}
    (hmem : vs ∈ c.components) (hk : k < c.numVS) :
    ((vs_stampG c (k, vs)).map fun u =>
        if u.1 < c.numNodes ∧ u.2.1 < c.size then x u.1 * u.2.2 * x u.2.1 else 0).sum
      = (voltFun c x vs.node1 - voltFun c x vs.node2) * x (c.numNodes + k) := by
  have hrowN : ¬ (c.numNodes + k < c.numNodes) := by omega
  have hrowS : c.numNodes + k < c.size := by
    rw [Circuit.size]
    omega
  rw [vs_stampG]
  simp only [voltFun]
  by_cases hn1 : vs.node1 ≠ c.referenceNode <;> by_cases hn2 : vs.node2 ≠ c.referenceNode
  · have hi := nodeIndex_lt (terminal1_mem_nonRefNodes hmem hn1)
    have hj := nodeIndex_lt (terminal2_mem_nonRefNodes hmem hn2)
    simp only [if_pos hn1, if_pos hn2, if_neg hn1, if_neg hn2, List.map_append,
      List.sum_append, List.map_cons, List.sum_cons, List.map_nil, List.sum_nil]
    rw [if_neg (by tauto), if_pos ⟨hi, hrowS⟩, if_neg (by tauto), if_pos ⟨hj, hrowS⟩]
    ring
  · rw [not_not] at hn2
    have hi := nodeIndex_lt (terminal1_mem_nonRefNodes hmem hn1)
    simp only [if_pos hn1, if_neg (not_not_intro hn2), if_neg hn1, if_pos hn2,
      List.append_nil, List.map_cons, List.sum_cons, List.map_nil, List.sum_nil]
    rw [if_neg (by tauto), if_pos ⟨hi, hrowS⟩]
    ring
  · rw [not_not] at hn1
    have hj := nodeIndex_lt (terminal2_mem_nonRefNodes hmem hn2)
    simp only [if_neg (not_not_intro hn1), if_pos hn2, if_pos hn1, if_neg hn2,
      List.nil_append, List.map_cons, List.sum_cons, List.map_nil, List.sum_nil]
    rw [if_neg (by tauto), if_pos ⟨hj, hrowS⟩]
    ring
  · rw [not_not] at hn1 hn2
    simp [hn1, hn2]

/-- The right-hand-side stamp of a voltage source sits in a constraint row,
outside the node rows, so it contributes nothing to the node-row energy
sum. -/
theorem vs_stampZ_power_zero (c : Circuit) (x : ℕ → ℚ) (k : ℕ) (vs : Component) :
    ((vs_stampZ c (k, vs)).map fun u =>
        if u.1 < c.numNodes then x u.1 * u.2 else 0).sum = 0 := by
  have h : ¬ (c.numNodes + k < c.numNodes) := by omega
  rw [vs_stampZ]
  simp [h]

/-- The reported power of a resistor, in terms of the node voltages of the
solution vector. -/
theorem calc_power_resistor (c : Circuit) (x : ℕ → ℚ) {r : Component}
    (hr : r ∈ c.resistors) :
    (calculate_component_result c
        ((c.referenceNode, 0) :: c.nonRefNodes.enum.map fun p => (p.2, x p.1))
        (fun k => x (c.numNodes + k)) r).power
      = (voltFun c x r.node1 - voltFun c x r.node2)
        * ((voltFun c x r.node1 - voltFun c x r.node2) / r.value) := by
  have hk : r.kind = CompKind.resistor := by
    simpa using (List.mem_filter.mp hr).2
  have h1 := voltages_lookup c x (mem_nodeList_left (mem_resistors_sub hr))
  have h2 := voltages_lookup c x (mem_nodeList_right (mem_resistors_sub hr))
  simp only [calculate_component_result, hk, h1, h2]

/-- The reported power of a current source. -/
theorem calc_power_current_source (c : Circuit) (x : ℕ → ℚ) {cs : Component}
    (hcs : cs ∈ c.currentSources) :
    (calculate_component_result c
        ((c.referenceNode, 0) :: c.nonRefNodes.enum.map fun p => (p.2, x p.1))
        (fun k => x (c.numNodes + k)) cs).power
      = (voltFun c x cs.node1 - voltFun c x cs.node2) * cs.value := by
  have hk : cs.kind = CompKind.currentSource := by
    simpa using (List.mem_filter.mp hcs).2
  have h1 := voltages_lookup c x (mem_nodeList_left (mem_currentSources_sub hcs))
  have h2 := voltages_lookup c x (mem_nodeList_right (mem_currentSources_sub hcs))
  simp only [calculate_component_result, hk, h1, h2]

/-- The reported power of the `k`-th voltage source: the id lookup into
`vs_currents` finds exactly its own branch current when ids are unique. -/
theorem calc_power_voltage_source (c : Circuit) (x : ℕ → ℚ) {k : ℕ} {vs : Component}
    (hids : (c.components.map (·.id)).Nodup)
    (hkvs : (k, vs) ∈ c.voltageSources.enum) :
    (calculate_component_result c
        ((c.referenceNode, 0) :: c.nonRefNodes.enum.map fun p => (p.2, x p.1))
        (fun k => x (c.numNodes + k)) vs).power
      = (voltFun c x vs.node1 - voltFun c x vs.node2) * x (c.numNodes + k) := by
  have hvmem : vs ∈ c.voltageSources := List.snd_mem_of_mem_enumFrom hkvs
  have hk : vs.kind = CompKind.voltageSource := by
    simpa using (List.mem_filter.mp hvmem).2
  have hidsVS : (c.voltageSources.map (·.id)).Nodup :=
    hids.sublist (List.Sublist.map _ (List.filter_sublist _))
  have hfind := find_enumFrom_by_id c.voltageSources 0 k vs hidsVS hkvs
  have h1 := voltages_lookup c x (mem_nodeList_left (mem_voltageSources_sub hvmem))
  have h2 := voltages_lookup c x (mem_nodeList_right (mem_voltageSources_sub hvmem))
  simp only [calculate_component_result, hk, h1, h2,
    show c.voltageSources.enum = List.enumFrom 0 c.voltageSources from rfl, hfind]

theorem sum_map_neg {α : Type} (g : α → ℚ) :
    ∀ l : List α, (l.map fun a => -(g a)).sum = -(l.map g).sum
  | [] => by simp
  | a :: l => by
    rw [List.map_cons, List.sum_cons, List.map_cons, List.sum_cons, sum_map_neg g l]
    ring

/-- **Tellegen's identity for the packaged solution**: the solver's total
power equals the node-row energy residual of the assembled system. -/
theorem total_power_eq_energy (c : Circuit) (x : ℕ → ℚ)
    (hids : (c.components.map (·.id)).Nodup)
    (hdist : ∀ comp ∈ c.components, comp.node1 ≠ comp.node2) :
    ((c.components.map fun comp => (calculate_component_result c
        ((c.referenceNode, 0) :: c.nonRefNodes.enum.map fun p => (p.2, x p.1))
        (fun k => x (c.numNodes + k)) comp).power).sum)
      = (∑ i ∈ Finset.range c.numNodes,
          x i * ∑ j ∈ Finset.range c.size, (build_mna_system c).1 i j * x j)
        - ∑ i ∈ Finset.range c.numNodes, x i * (build_mna_system c).2 i := by
  have hloop : ∀ vs ∈ c.voltageSources, vs.node1 = vs.node2 → vs.node1 = c.referenceNode :=
    fun vs hvs h => absurd h (hdist vs (mem_voltageSources_sub hvs))
  have hG := (build_mna_eq_spec c hloop).1
  have hZ := (build_mna_eq_spec c hloop).2
  -- right-hand side: energy of the stamp sums
  have hRG : (∑ i ∈ Finset.range c.numNodes,
        x i * ∑ j ∈ Finset.range c.size, (build_mna_system c).1 i j * x j)
      = ((gStamps c).map fun u =>
          if u.1 < c.numNodes ∧ u.2.1 < c.size then x u.1 * u.2.2 * x u.2.1 else 0).sum := by
    rw [← double_sum_sumG x c.numNodes c.size (gStamps c)]
    refine Finset.sum_congr rfl fun i _ => ?_
    congr 1
    refine Finset.sum_congr rfl fun j _ => ?_
    rw [hG i j]
  have hRZ : (∑ i ∈ Finset.range c.numNodes, x i * (build_mna_system c).2 i)
      = ((zStamps c).map fun u =>
          if u.1 < c.numNodes then x u.1 * u.2 else 0).sum := by
    rw [← double_sum_sumZ x c.numNodes (zStamps c)]
    refine Finset.sum_congr rfl fun i _ => ?_
    rw [hZ i]
  rw [hRG, hRZ, gStamps, zStamps]
  rw [List.map_append, List.sum_append, List.map_append, List.sum_append]
  rw [sum_map_flatMap, sum_map_flatMap, sum_map_flatMap, sum_map_flatMap]
  -- left-hand side: split the component sum by kind
  rw [sum_map_filter_kinds]
  -- resistor group
  have hResG : ((c.components.filter fun comp => comp.kind = CompKind.resistor).map
        fun comp => (calculate_component_result c
          ((c.referenceNode, 0) :: c.nonRefNodes.enum.map fun p => (p.2, x p.1))
          (fun k => x (c.numNodes + k)) comp).power).sum
      = ((c.resistors).map fun r => ((resistor_stamp c r).map fun u =>
          if u.1 < c.numNodes ∧ u.2.1 < c.size then x u.1 * u.2.2 * x u.2.1 else 0).sum).sum := by
    refine congrArg List.sum (List.map_congr_left fun r hr => ?_)
    rw [calc_power_resistor c x hr, resistor_stamp_power c x hr]
  -- current-source group
  have hCsG : ((c.components.filter fun comp => comp.kind = CompKind.currentSource).map
        fun comp => (calculate_component_result c
          ((c.referenceNode, 0) :: c.nonRefNodes.enum.map fun p => (p.2, x p.1))
          (fun k => x (c.numNodes + k)) comp).power).sum
      = -((c.currentSources).map fun cs => ((current_stamp c cs).map fun u =>
          if u.1 < c.numNodes then x u.1 * u.2 else 0).sum).sum := by
    rw [show -((c.currentSources).map fun cs => ((current_stamp c cs).map fun u =>
          if u.1 < c.numNodes then x u.1 * u.2 else 0).sum).sum
        = ((c.currentSources).map fun cs => -((current_stamp c cs).map fun u =>
          if u.1 < c.numNodes then x u.1 * u.2 else 0).sum).sum from
      (sum_map_neg _ _).symm]
    refine congrArg List.sum (List.map_congr_left fun cs hcs => ?_)
    rw [calc_power_current_source c x hcs, current_stamp_power c x hcs]
    ring
  -- voltage-source group
  have hVsG : ((c.components.filter fun comp => comp.kind = CompKind.voltageSource).map
        fun comp => (calculate_component_result c
          ((c.referenceNode, 0) :: c.nonRefNodes.enum.map fun p => (p.2, x p.1))
          (fun k => x (c.numNodes + k)) comp).power).sum
      = ((c.voltageSources.enum).map fun kvs => ((vs_stampG c kvs).map fun u =>
          if u.1 < c.numNodes ∧ u.2.1 < c.size then x u.1 * u.2.2 * x u.2.1 else 0).sum).sum := by
    rw [show (c.components.filter fun comp => comp.kind = CompKind.voltageSource)
        = c.voltageSources.enum.map Prod.snd from (List.enum_map_snd _).symm]
    rw [List.map_map]
    refine congrArg List.sum (List.map_congr_left fun kvs hkvs => ?_)
    obtain ⟨k, vs⟩ := kvs
    have hkM : k < c.numVS := by
      have := List.mem_enumFrom hkvs
      simpa [Circuit.numVS] using this.2.1
    have hvm : vs ∈ c.components :=
      mem_voltageSources_sub (List.snd_mem_of_mem_enumFrom hkvs)
    show (calculate_component_result c _ _ vs).power = _
    rw [calc_power_voltage_source c x hids hkvs, vs_stampG_power c x hvm hkM]
  -- the voltage-source right-hand-side stamps contribute nothing
  have hVsZ : ((c.voltageSources.enum).map fun kvs => ((vs_stampZ c kvs).map fun u =>
        if u.1 < c.numNodes then x u.1 * u.2 else 0).sum).sum = 0 := by
    apply List.sum_eq_zero
    intro y hy
    obtain ⟨⟨k, vs⟩, -, rfl⟩ := List.mem_map.mp hy
    exact vs_stampZ_power_zero c x k vs
  rw [hResG, hCsG, hVsG, hVsZ]
  ring

/-- C5: for every valid circuit (unique component ids, distinct terminal
nodes) that solves successfully, the sum of the reported per-component
powers — resistors `v·(v/R)`, current sources `v·I`, voltage sources
`v·i_branch` — is exactly zero in exact arithmetic. -/
theorem C5_power_conservation (c : Circuit) (sol : Solution)
    (hids : (c.components.map (·.id)).Nodup)
    (hdist : ∀ comp ∈ c.components, comp.node1 ≠ comp.node2)
    (hsol : solve c = .success sol) :
    sol.total_power = 0 := by
  rw [solve] at hsol
  split at hsol
  · exact absurd hsol (by simp)
  · split at hsol
    · exact absurd hsol (by simp)
    · rename_i X hlin
      rw [SolveResponse.success.injEq] at hsol
      subst hsol
      have hmul := linSolve_sound hlin
      set x : ℕ → ℚ := fun i => if h : i < c.size then X ⟨i, h⟩ else 0 with hx
      have hrow : ∀ i, i < c.size →
          (∑ j ∈ Finset.range c.size, (build_mna_system c).1 i j * x j)
            = (build_mna_system c).2 i := by
        intro i hi
        have hdot := congrFun hmul ⟨i, hi⟩
        simp only [Matrix.mulVec, Matrix.dotProduct] at hdot
        calc (∑ j ∈ Finset.range c.size, (build_mna_system c).1 i j * x j)
            = ∑ j : Fin c.size, (build_mna_system c).1 i ↑j * x ↑j :=
              (Fin.sum_univ_eq_sum_range (fun j => (build_mna_system c).1 i j * x j)
                c.size).symm
          _ = ∑ j : Fin c.size, GMat c ⟨i, hi⟩ j * X j := by
              refine Finset.sum_congr rfl fun j _ => ?_
              rw [hx]
              simp only [GMat]
              rw [dif_pos j.isLt]
          _ = (build_mna_system c).2 i := hdot
      have hS : (∑ i ∈ Finset.range c.numNodes,
            x i * ∑ j ∈ Finset.range c.size, (build_mna_system c).1 i j * x j)
          - (∑ i ∈ Finset.range c.numNodes, x i * (build_mna_system c).2 i) = 0 := by
        rw [← Finset.sum_sub_distrib]
        apply Finset.sum_eq_zero
        intro i hi
        rw [hrow i (lt_of_lt_of_le (Finset.mem_range.mp hi) (Nat.le_add_right _ _))]
        ring
      have hshape : (package_solution c x).total_power
          = ((c.components.map fun comp => (calculate_component_result c
              ((c.referenceNode, 0) :: c.nonRefNodes.enum.map fun p => (p.2, x p.1))
              (fun k => x (c.numNodes + k)) comp).power).sum) := by
        simp only [package_solution, List.map_map]
        rfl
      rw [hshape, total_power_eq_energy c x hids hdist, hS]

/-- C5: witness at the grounded source `VS(5,1,0)`: the solve succeeds and
the reported total power is exactly `0`. -/
theorem C5_witness :
    ((singleVS.components.map (·.id)).Nodup
      ∧ ∀ comp ∈ singleVS.components, comp.node1 ≠ comp.node2)
      ∧ ∃ sol, solve singleVS = .success sol ∧ sol.total_power = 0 := by
  have hdet : ¬ detQ (GMat singleVS) = 0 := by
    have hGm : GMat singleVS = !![0, 1; 1, 0] := by decide
    rw [detQ_eq_det, hGm, Matrix.det_fin_two_of]
    norm_num
  have hsol : solve singleVS
      = .success (package_solution singleVS (fun i =>
          if h : i < singleVS.size then
            ((detQ (GMat singleVS))⁻¹ • (adjQ (GMat singleVS)).mulVec (ZVec singleVS)) ⟨i, h⟩
          else 0)) := by
    rw [solve, if_neg (by decide), linSolve, if_neg hdet]
  exact ⟨⟨by decide, by decide⟩, _, hsol,
    C5_power_conservation singleVS _ (by decide) (by decide) hsol⟩

/-! ### Helper lemmas: circuits with permuted component lists (C6)

`CircuitSolver.__init__` sorts the non-reference nodes, so every quantity
derived from the node set is literally unchanged when the component list is
permuted; the voltage sources keep their multiset but may change their
insertion order, which renumbers the branch-current rows. -/

theorem nodeList_perm_of_perm {c c' : Circuit}
    (hperm : c'.components.Perm c.components)
    (href : c'.referenceNode = c.referenceNode) :
    c'.nodeList.Perm c.nodeList := by
  rw [Circuit.nodeList, Circuit.nodeList, href]
  exact ((hperm.flatMap_right _).append_right _).dedup

theorem nonRefNodes_eq_of_perm {c c' : Circuit}
    (hperm : c'.components.Perm c.components)
    (href : c'.referenceNode = c.referenceNode) :
    c'.nonRefNodes = c.nonRefNodes := by
  rw [Circuit.nonRefNodes, Circuit.nonRefNodes, href]
  apply List.eq_of_perm_of_sorted (r := (· ≤ ·))
  · exact (List.perm_insertionSort _ _).trans
      (((nodeList_perm_of_perm hperm href).filter _).trans
        (List.perm_insertionSort _ _).symm)
  · exact List.sorted_insertionSort _ _
  · exact List.sorted_insertionSort _ _

theorem numNodes_eq_of_perm {c c' : Circuit}
    (hperm : c'.components.Perm c.components)
    (href : c'.referenceNode = c.referenceNode) :
    c'.numNodes = c.numNodes := by
  rw [Circuit.numNodes, Circuit.numNodes, nonRefNodes_eq_of_perm hperm href]

theorem nodeIndex_eq_of_perm {c c' : Circuit}
    (hperm : c'.components.Perm c.components)
    (href : c'.referenceNode = c.referenceNode) :
    c'.nodeIndex = c.nodeIndex := by
  funext n
  rw [Circuit.nodeIndex, Circuit.nodeIndex, nonRefNodes_eq_of_perm hperm href]

theorem resistors_perm_of_perm {c c' : Circuit}
    (hperm : c'.components.Perm c.components) :
    c'.resistors.Perm c.resistors := hperm.filter _

theorem voltageSources_perm_of_perm {c c' : Circuit}
    (hperm : c'.components.Perm c.components) :
    c'.voltageSources.Perm c.voltageSources := hperm.filter _

theorem currentSources_perm_of_perm {c c' : Circuit}
    (hperm : c'.components.Perm c.components) :
    c'.currentSources.Perm c.currentSources := hperm.filter _

theorem numVS_eq_of_perm {c c' : Circuit}
    (hperm : c'.components.Perm c.components) :
    c'.numVS = c.numVS := (voltageSources_perm_of_perm hperm).length_eq

theorem size_eq_of_perm {c c' : Circuit}
    (hperm : c'.components.Perm c.components)
    (href : c'.referenceNode = c.referenceNode) :
    c'.size = c.size := by
  rw [Circuit.size, Circuit.size, numNodes_eq_of_perm hperm href,
    numVS_eq_of_perm hperm]

theorem resistor_stamp_congr {c c' : Circuit}
    (hperm : c'.components.Perm c.components)
    (href : c'.referenceNode = c.referenceNode) :
    resistor_stamp c' = resistor_stamp c := by
  funext r
  simp only [resistor_stamp, href, nodeIndex_eq_of_perm hperm href]

theorem current_stamp_congr {c c' : Circuit}
    (hperm : c'.components.Perm c.components)
    (href : c'.referenceNode = c.referenceNode) :
    current_stamp c' = current_stamp c := by
  funext cs
  simp only [current_stamp, href, nodeIndex_eq_of_perm hperm href]

theorem vs_stampG_congr {c c' : Circuit}
    (hperm : c'.components.Perm c.components)
    (href : c'.referenceNode = c.referenceNode) :
    vs_stampG c' = vs_stampG c := by
  funext kvs
  simp only [vs_stampG, href, nodeIndex_eq_of_perm hperm href,
    numNodes_eq_of_perm hperm href]

theorem vs_stampZ_congr {c c' : Circuit}
    (hperm : c'.components.Perm c.components)
    (href : c'.referenceNode = c.referenceNode) :
    vs_stampZ c' = vs_stampZ c := by
  funext kvs
  simp only [vs_stampZ, numNodes_eq_of_perm hperm href]

theorem hloop_of_perm {c c' : Circuit}
    (hperm : c'.components.Perm c.components)
    (href : c'.referenceNode = c.referenceNode)
    (hloop : ∀ vs ∈ c.voltageSources, vs.node1 = vs.node2 → vs.node1 = c.referenceNode) :
    ∀ vs ∈ c'.voltageSources, vs.node1 = vs.node2 → vs.node1 = c'.referenceNode := by
  intro vs hvs heq
  rw [href]
  exact hloop vs ((voltageSources_perm_of_perm hperm).mem_iff.mp hvs) heq

theorem row_sum_sumG (y : ℕ → ℚ) (Sz i : ℕ) :
    ∀ us : List (ℕ × ℕ × ℚ),
      (∑ j ∈ Finset.range Sz, sumG us i j * y j) = rowG y Sz i us
  | [] => by simp [sumG, rowG]
  | u :: us => by
    have ih := row_sum_sumG y Sz i us
    have hsplit : ∀ j ∈ Finset.range Sz, sumG (u :: us) i j * y j
        = (if i = u.1 ∧ j = u.2.1 then u.2.2 else 0) * y j + sumG us i j * y j := by
      intro j _
      rw [sumG_cons, add_mul]
    rw [Finset.sum_congr rfl hsplit, Finset.sum_add_distrib, ih,
      show rowG y Sz i (u :: us)
          = (if u.1 = i ∧ u.2.1 < Sz then u.2.2 * y u.2.1 else 0) + rowG y Sz i us from by
        rw [rowG, rowG, List.map_cons, List.sum_cons]]
    congr 1
    by_cases hi : i = u.1
    · have h1 : ∀ j ∈ Finset.range Sz, (if i = u.1 ∧ j = u.2.1 then u.2.2 else 0) * y j
          = if j = u.2.1 then u.2.2 * y u.2.1 else 0 := by
        intro j _
        by_cases hj : j = u.2.1
        · rw [if_pos ⟨hi, hj⟩, if_pos hj, hj]
        · rw [if_neg (fun hand => hj hand.2), if_neg hj, zero_mul]
      rw [Finset.sum_congr rfl h1,
        Finset.sum_ite_eq' (Finset.range Sz) u.2.1 (fun _ => u.2.2 * y u.2.1)]
      simp only [Finset.mem_range]
      by_cases hc : u.2.1 < Sz
      · rw [if_pos hc, if_pos ⟨hi.symm, hc⟩]
      · rw [if_neg hc, if_neg (fun hand => hc hand.2)]
    · have h1 : ∀ j ∈ Finset.range Sz, (if i = u.1 ∧ j = u.2.1 then u.2.2 else 0) * y j
          = 0 := by
        intro j _
        rw [if_neg (fun hand => hi hand.1), zero_mul]
      rw [Finset.sum_congr rfl h1, Finset.sum_const_zero,
        if_neg (fun hand => hi hand.1.symm)]

theorem rowG_append (y : VecF) (Sz i : ℕ) (us vs : List (ℕ × ℕ × ℚ)) :
    rowG y Sz i (us ++ vs) = rowG y Sz i us + rowG y Sz i vs := by
  rw [rowG, rowG, rowG, List.map_append, List.sum_append]

theorem rowG_eq_zero {y : VecF} {Sz i : ℕ} {us : List (ℕ × ℕ × ℚ)}
    (h : ∀ u ∈ us, u.1 ≠ i) : rowG y Sz i us = 0 := by
  rw [rowG]
  apply List.sum_eq_zero
  intro q hq
  rcases List.mem_map.mp hq with ⟨u, hu, rfl⟩
  rw [if_neg (fun hand => h u hu hand.1)]

theorem rowG_congr {y y' : VecF} (Sz i : ℕ) {us : List (ℕ × ℕ × ℚ)}
    (h : ∀ u ∈ us, u.1 = i → u.2.1 < Sz → y u.2.1 = y' u.2.1) :
    rowG y Sz i us = rowG y' Sz i us := by
  rw [rowG, rowG]
  congr 1
  apply List.map_congr_left
  intro u hu
  by_cases hc : u.1 = i ∧ u.2.1 < Sz
  · rw [if_pos hc, if_pos hc, h u hu hc.1 hc.2]
  · rw [if_neg hc, if_neg hc]

theorem rowG_perm (y : VecF) (Sz i : ℕ) {us vs : List (ℕ × ℕ × ℚ)}
    (h : us.Perm vs) : rowG y Sz i us = rowG y Sz i vs :=
  (h.map _).sum_eq

theorem rowG_flatMap {α : Type} (y : VecF) (Sz i : ℕ)
    (f : α → List (ℕ × ℕ × ℚ)) (l : List α) :
    rowG y Sz i (l.flatMap f) = (l.map fun a => rowG y Sz i (f a)).sum := by
  rw [rowG, sum_map_flatMap]
  rfl

theorem sumZ_perm (a : ℕ) {us vs : List (ℕ × ℚ)} (h : us.Perm vs) :
    sumZ us a = sumZ vs a :=
  (h.map _).sum_eq

theorem perm_any {α : Type} (p : α → Bool) {l l' : List α} (h : l.Perm l') :
    l.any p = l'.any p := by
  induction h with
  | nil => rfl
  | cons x _ ih => simp [List.any_cons, ih]
  | swap x y l => cases hp : p x <;> cases hq : p y <;> simp [List.any_cons, hp, hq]
  | trans _ _ ih1 ih2 => rw [ih1, ih2]

theorem vsRowCoupl_congr {c c' : Circuit}
    (hperm : c'.components.Perm c.components)
    (href : c'.referenceNode = c.referenceNode) :
    vsRowCoupl c' = vsRowCoupl c := by
  funext vs i
  simp only [vsRowCoupl, href, nodeIndex_eq_of_perm hperm href]

/-- A voltage-source stamp seen from a KCL row `i < N`: only the
current-column entries survive, with the coupling coefficient. -/
theorem vs_stampG_row_node (c : Circuit) (y : VecF) {k i : ℕ} (vs : Component)
    (hk : k < c.numVS) (hi : i < c.numNodes) :
    rowG y c.size i (vs_stampG c (k, vs)) = vsRowCoupl c vs i * y (c.numNodes + k) := by
  have hrow_ne : c.numNodes + k ≠ i := by omega
  have hrow_lt : c.numNodes + k < c.size := by
    rw [Circuit.size]; omega
  simp only [vs_stampG]
  rw [rowG]
  split_ifs with h1 h2 h2 <;>
    simp only [List.map_append, List.map_cons, List.map_nil, List.sum_append,
      List.sum_cons, List.sum_nil] <;>
    rw [vsRowCoupl]
  · by_cases ha : c.nodeIndex vs.node1 = i <;>
      by_cases hb : c.nodeIndex vs.node2 = i <;>
      simp [ha, hb, h1, h2, hrow_lt, hrow_ne] <;> ring
  · by_cases ha : c.nodeIndex vs.node1 = i <;>
      simp [ha, h1, h2, hrow_lt, hrow_ne] <;> ring
  · by_cases hb : c.nodeIndex vs.node2 = i <;>
      simp [hb, h1, h2, hrow_lt, hrow_ne] <;> ring
  · simp [h1, h2]

/-- A voltage-source stamp seen from its own constraint row `N + k`: the
voltage difference of the non-reference terminals. -/
theorem vs_stampG_row_own (c : Circuit) (y : VecF) {k : ℕ} {vs : Component}
    (hmem : vs ∈ c.components) (hk : k < c.numVS) :
    rowG y c.size (c.numNodes + k) (vs_stampG c (k, vs))
      = (if vs.node1 ≠ c.referenceNode then y (c.nodeIndex vs.node1) else 0)
        - (if vs.node2 ≠ c.referenceNode then y (c.nodeIndex vs.node2) else 0) := by
  simp only [vs_stampG]
  rw [rowG]
  split_ifs with h1 h2 h2 <;>
    simp only [List.map_append, List.map_cons, List.map_nil, List.sum_append,
      List.sum_cons, List.sum_nil]
  · have hi1 := nodeIndex_lt (terminal1_mem_nonRefNodes hmem h1)
    have hi2 := nodeIndex_lt (terminal2_mem_nonRefNodes hmem h2)
    have hne1 : c.nodeIndex vs.node1 ≠ c.numNodes + k := by omega
    have hlt1 : c.nodeIndex vs.node1 < c.size := by rw [Circuit.size]; omega
    have hne2 : c.nodeIndex vs.node2 ≠ c.numNodes + k := by omega
    have hlt2 : c.nodeIndex vs.node2 < c.size := by rw [Circuit.size]; omega
    simp [h1, h2, hne1, hne2, hlt1, hlt2] <;> ring
  · have hi1 := nodeIndex_lt (terminal1_mem_nonRefNodes hmem h1)
    have hne1 : c.nodeIndex vs.node1 ≠ c.numNodes + k := by omega
    have hlt1 : c.nodeIndex vs.node1 < c.size := by rw [Circuit.size]; omega
    simp [h1, h2, hne1, hlt1] <;> ring
  · have hi2 := nodeIndex_lt (terminal2_mem_nonRefNodes hmem h2)
    have hne2 : c.nodeIndex vs.node2 ≠ c.numNodes + k := by omega
    have hlt2 : c.nodeIndex vs.node2 < c.size := by rw [Circuit.size]; omega
    simp [h1, h2, hne2, hlt2] <;> ring
  · simp [h1, h2]

/-- A voltage-source stamp contributes nothing to another source's
constraint row. -/
theorem vs_stampG_row_other (c : Circuit) (y : VecF) {k k' : ℕ} {vs : Component}
    (hmem : vs ∈ c.components) (hne : k' ≠ k) :
    rowG y c.size (c.numNodes + k) (vs_stampG c (k', vs)) = 0 := by
  apply rowG_eq_zero
  intro u hu
  rcases vs_stampG_mem hmem hu with ⟨h1, -⟩ | ⟨h1, -⟩ <;> omega

/-- Resistor stamps live in the KCL block and contribute nothing to a
constraint row. -/
theorem resistor_stamp_row_vanish (c : Circuit) (y : VecF) (Sz : ℕ) {k : ℕ}
    {r : Component} (hr : r ∈ c.resistors) :
    rowG y Sz (c.numNodes + k) (resistor_stamp c r) = 0 := by
  apply rowG_eq_zero
  intro u hu
  have := (resistor_stamp_bounds hr u hu).1
  omega

/-- Extracting the single non-vanishing term from a sum over an enumerated
list: the enumeration indices are distinct, so if everything away from
index `k` vanishes, the sum is the term at `k`. -/
theorem sum_map_enumFrom_single {α : Type} (f : ℕ × α → ℚ) :
    ∀ (l : List α) (k0 k : ℕ) (a : α), (k, a) ∈ List.enumFrom k0 l →
      (∀ p ∈ List.enumFrom k0 l, p.1 ≠ k → f p = 0) →
      ((List.enumFrom k0 l).map f).sum = f (k, a)
  | [], _, _, _, hmem, _ => by simp at hmem
  | x :: l, k0, k, a, hmem, h0 => by
    rw [List.enumFrom_cons] at hmem h0 ⊢
    rw [List.map_cons, List.sum_cons]
    rcases List.mem_cons.mp hmem with heq | hmem'
    · obtain ⟨rfl, rfl⟩ : k = k0 ∧ a = x := by
        rw [Prod.mk.injEq] at heq; exact heq
      have hrest : ((List.enumFrom (k + 1) l).map f).sum = 0 := by
        apply List.sum_eq_zero
        intro q hq
        rcases List.mem_map.mp hq with ⟨p, hp, rfl⟩
        have hge := (List.mem_enumFrom hp).1
        exact h0 p (List.mem_cons_of_mem _ hp) (by omega)
      rw [hrest, add_zero]
    · have hk1 : k0 + 1 ≤ k := (List.mem_enumFrom hmem').1
      rw [h0 (k0, x) (List.mem_cons_self _ _) (by omega), zero_add]
      exact sum_map_enumFrom_single f l (k0 + 1) k a hmem'
        (fun p hp hpk => h0 p (List.mem_cons_of_mem _ hp) hpk)

/-- In the enumeration of a duplicate-free list, the index of each pair is
the `indexOf` of its element. -/
theorem enum_fst_eq_indexOf {α : Type} [DecidableEq α] {l : List α}
    (hnd : l.Nodup) {p : ℕ × α} (hp : p ∈ l.enum) : p.1 = l.indexOf p.2 := by
  have hp' : p ∈ List.enumFrom 0 l := hp
  have h := List.mem_enumFrom hp'
  have hlt : p.1 < l.length := by
    have := h.2.1
    omega
  have hval : p.2 = l[p.1 - 0] := h.2.2
  have hmem : p.2 ∈ l := List.snd_mem_of_mem_enumFrom hp'
  have hidx : l.indexOf p.2 < l.length := List.indexOf_lt_length.mpr hmem
  have hgp : l.get ⟨p.1, hlt⟩ = p.2 := hval.symm
  have hkey : l.get ⟨l.indexOf p.2, hidx⟩ = l.get ⟨p.1, hlt⟩ := by
    rw [List.indexOf_get hidx, hgp]
  exact ((hnd.get_inj_iff).mp hkey |> congrArg Fin.val).symm

/-- Every element of a duplicate-free list appears in the enumeration at
its `indexOf` position. -/
theorem indexOf_mem_enum {α : Type} [DecidableEq α] {l : List α} {a : α}
    (ha : a ∈ l) : (l.indexOf a, a) ∈ l.enum := by
  have hlt : l.indexOf a < l.length := List.indexOf_lt_length.mpr ha
  have hlen : l.indexOf a < l.enum.length := by
    rw [List.enum_length]; exact hlt
  have hval : l.enum[l.indexOf a] = (l.indexOf a, a) := by
    rw [List.getElem_enum, List.getElem_indexOf hlt]
  exact hval ▸ l.enum.getElem_mem hlen

/-- The right-hand side of a constraint row `N + k` is exactly the value of
the `k`-th voltage source. -/
theorem sumZ_vs_enumFrom (c : Circuit) :
    ∀ (l : List Component) (k0 k : ℕ) (vs : Component), (k, vs) ∈ List.enumFrom k0 l →
      sumZ ((List.enumFrom k0 l).flatMap (vs_stampZ c)) (c.numNodes + k) = vs.value
  | [], _, _, _, hmem => by simp at hmem
  | x :: l, k0, k, vs, hmem => by
    rw [List.enumFrom_cons] at hmem ⊢
    rw [List.flatMap_cons, sumZ_append]
    rcases List.mem_cons.mp hmem with heq | hmem'
    · obtain ⟨rfl, rfl⟩ : k0 = k ∧ x = vs := by
        rw [Prod.mk.injEq] at heq
        exact ⟨heq.1.symm, heq.2.symm⟩
      have h1 : sumZ (vs_stampZ c (k0, x)) (c.numNodes + k0) = x.value := by
        simp [vs_stampZ, sumZ]
      have h2 : sumZ ((List.enumFrom (k0 + 1) l).flatMap (vs_stampZ c))
          (c.numNodes + k0) = 0 := by
        apply sumZ_eq_zero
        intro u hu
        rcases List.mem_flatMap.mp hu with ⟨p, hp, hup⟩
        have hge := (List.mem_enumFrom hp).1
        simp only [vs_stampZ, List.mem_cons, List.not_mem_nil, or_false] at hup
        subst hup
        simp only
        omega
      rw [h1, h2, add_zero]
    · have hk1 : k0 + 1 ≤ k := (List.mem_enumFrom hmem').1
      have h1 : sumZ (vs_stampZ c (k0, x)) (c.numNodes + k) = 0 := by
        apply sumZ_eq_zero
        intro u hu
        simp only [vs_stampZ, List.mem_cons, List.not_mem_nil, or_false] at hu
        subst hu
        simp only
        omega
      rw [h1, zero_add]
      exact sumZ_vs_enumFrom c l (k0 + 1) k vs hmem'

theorem vsReindex_node {c c' : Circuit} {j : ℕ} (hj : j < c.numNodes) :
    vsReindex c c' j = j := by
  rw [vsReindex, if_pos hj]

theorem vsReindex_getD {c c' : Circuit} {k : ℕ} {vs : Component}
    (hkvs : (k, vs) ∈ c'.voltageSources.enum) :
    vsReindex c c' (c.numNodes + k) = c.numNodes + c.voltageSources.indexOf vs := by
  have hkvs' : (k, vs) ∈ List.enumFrom 0 c'.voltageSources := hkvs
  have h := List.mem_enumFrom hkvs'
  have hlt : k < c'.voltageSources.length := by
    have := h.2.1
    omega
  rw [vsReindex, if_neg (by omega), Nat.add_sub_cancel_left]
  have hgd : c'.voltageSources.getD k defaultComponent = vs := by
    rw [List.getD_eq_getElem _ _ hlt]
    exact (h.2.2).symm
  rw [hgd]

theorem vsReindex_lt {c c' : Circuit}
    (hperm : c'.components.Perm c.components)
    (href : c'.referenceNode = c.referenceNode)
    {j : ℕ} (hj : j < c.size) : vsReindex c c' j < c.size := by
  have hN : c'.numNodes = c.numNodes := numNodes_eq_of_perm hperm href
  have hM : c'.numVS = c.numVS := numVS_eq_of_perm hperm
  rw [vsReindex]
  split_ifs with h
  · rw [Circuit.size]
    omega
  · have hlt : j - c.numNodes < c'.voltageSources.length := by
      rw [Circuit.size] at hj
      have h1 : c'.voltageSources.length = c'.numVS := rfl
      omega
    have hmem : c'.voltageSources.getD (j - c.numNodes) defaultComponent
        ∈ c'.voltageSources := by
      rw [List.getD_eq_getElem _ _ hlt]
      exact c'.voltageSources.getElem_mem hlt
    have hmem2 := (voltageSources_perm_of_perm hperm).mem_iff.mp hmem
    have := List.indexOf_lt_length.mpr hmem2
    rw [Circuit.size]
    have h2 : c.voltageSources.length = c.numVS := rfl
    omega

/-- Master lemma, KCL rows: a KCL row of the permuted circuit's system,
applied to a reindexed vector, is the corresponding row of the original
system applied to the vector itself. -/
theorem mna_row_node_of_perm (c c' : Circuit)
    (hperm : c'.components.Perm c.components)
    (href : c'.referenceNode = c.referenceNode)
    (hloop : ∀ vs ∈ c.voltageSources, vs.node1 = vs.node2 → vs.node1 = c.referenceNode)
    (hids : (c.components.map (fun comp => comp.id)).Nodup)
    (y : ℕ → ℚ) {i : ℕ} (hi : i < c.numNodes) :
    (∑ j ∈ Finset.range c.size, (build_mna_system c').1 i j * y (vsReindex c c' j))
      = ∑ j ∈ Finset.range c.size, (build_mna_system c).1 i j * y j := by
  have hloop' := hloop_of_perm hperm href hloop
  have hb := build_mna_eq_spec c hloop
  have hb' := build_mna_eq_spec c' hloop'
  have hM : c'.numVS = c.numVS := numVS_eq_of_perm hperm
  have hndc : c.voltageSources.Nodup := (List.Nodup.of_map _ hids).filter _
  have hL : (∑ j ∈ Finset.range c.size, (build_mna_system c').1 i j * y (vsReindex c c' j))
      = rowG (fun t => y (vsReindex c c' t)) c.size i (gStamps c') := by
    rw [← row_sum_sumG]
    exact Finset.sum_congr rfl fun j _ => by rw [hb'.1 i j]
  have hR : (∑ j ∈ Finset.range c.size, (build_mna_system c).1 i j * y j)
      = rowG y c.size i (gStamps c) := by
    rw [← row_sum_sumG]
    exact Finset.sum_congr rfl fun j _ => by rw [hb.1 i j]
  rw [hL, hR, gStamps, gStamps, rowG_append, rowG_append]
  congr 1
  · -- resistor stamps: same multiset, same columns, reindex is the identity
    rw [resistor_stamp_congr hperm href,
      rowG_perm _ _ _ ((resistors_perm_of_perm hperm).flatMap_right _)]
    refine rowG_congr _ _ fun u hu _ hcol => ?_
    rcases List.mem_flatMap.mp hu with ⟨r, hr, hur⟩
    have hb2 := (resistor_stamp_bounds hr u hur).2
    show y (vsReindex c c' u.2.1) = y u.2.1
    rw [vsReindex_node hb2]
  · -- voltage-source stamps: reindex matches each source to its row in `c`
    rw [vs_stampG_congr hperm href, rowG_flatMap, rowG_flatMap]
    have hmap : ∀ l : List Component,
        (l.enum.map fun p => vsRowCoupl c p.2 i
            * y (c.numNodes + c.voltageSources.indexOf p.2))
          = l.map fun w => vsRowCoupl c w i
            * y (c.numNodes + c.voltageSources.indexOf w) := by
      intro l
      have h1 : (l.enum.map Prod.snd).map (fun w => vsRowCoupl c w i
            * y (c.numNodes + c.voltageSources.indexOf w))
          = l.enum.map fun p => vsRowCoupl c p.2 i
            * y (c.numNodes + c.voltageSources.indexOf p.2) := by
        rw [List.map_map]
        exact List.map_congr_left fun p _ => rfl
      rw [← h1, List.enum_map_snd]
    have hLs : (c'.voltageSources.enum.map fun p =>
          rowG (fun t => y (vsReindex c c' t)) c.size i (vs_stampG c p)).sum
        = (c'.voltageSources.enum.map fun p => vsRowCoupl c p.2 i
            * y (c.numNodes + c.voltageSources.indexOf p.2)).sum := by
      refine congrArg List.sum (List.map_congr_left fun p hp => ?_)
      obtain ⟨k, vs⟩ := p
      have hkM : k < c.numVS := by
        have hk' : k < c'.numVS := by
          have := List.mem_enumFrom hp
          have h2 := this.2.1
          rw [Circuit.numVS]
          omega
        omega
      rw [vs_stampG_row_node c _ vs hkM hi]
      show vsRowCoupl c vs i * y (vsReindex c c' (c.numNodes + k)) = _
      rw [vsReindex_getD hp]
    have hRs : (c.voltageSources.enum.map fun p =>
          rowG y c.size i (vs_stampG c p)).sum
        = (c.voltageSources.enum.map fun p => vsRowCoupl c p.2 i
            * y (c.numNodes + c.voltageSources.indexOf p.2)).sum := by
      refine congrArg List.sum (List.map_congr_left fun p hp => ?_)
      obtain ⟨k, vs⟩ := p
      have hkM : k < c.numVS := by
        have := List.mem_enumFrom hp
        have h2 := this.2.1
        rw [Circuit.numVS]
        omega
      rw [vs_stampG_row_node c _ vs hkM hi]
      have hfst : k = c.voltageSources.indexOf vs := by
        simpa using enum_fst_eq_indexOf hndc hp
      rw [hfst]
    rw [hLs, hRs, hmap c'.voltageSources, hmap c.voltageSources]
    exact ((voltageSources_perm_of_perm hperm).map _).sum_eq

/-- A constraint row of a stamped system, applied to a vector whose KCL
block is `y`: the terminal-voltage difference of the source owning the
row. -/
theorem gStamps_row_vs (c : Circuit)
    (hloop : ∀ vs ∈ c.voltageSources, vs.node1 = vs.node2 → vs.node1 = c.referenceNode)
    (y : ℕ → ℚ) {k : ℕ} {vs : Component}
    (hkvs : (k, vs) ∈ c.voltageSources.enum) :
    (∑ j ∈ Finset.range c.size, (build_mna_system c).1 (c.numNodes + k) j * y j)
      = (if vs.node1 ≠ c.referenceNode then y (c.nodeIndex vs.node1) else 0)
        - (if vs.node2 ≠ c.referenceNode then y (c.nodeIndex vs.node2) else 0) := by
  have hb := build_mna_eq_spec c hloop
  have hmemc : vs ∈ c.components :=
    mem_voltageSources_sub (List.snd_mem_of_mem_enumFrom hkvs)
  have hkM : k < c.numVS := by
    have := List.mem_enumFrom hkvs
    have h2 := this.2.1
    rw [Circuit.numVS]
    omega
  have hL : (∑ j ∈ Finset.range c.size, (build_mna_system c).1 (c.numNodes + k) j * y j)
      = rowG y c.size (c.numNodes + k) (gStamps c) := by
    rw [← row_sum_sumG]
    exact Finset.sum_congr rfl fun j _ => by rw [hb.1 _ j]
  rw [hL, gStamps, rowG_append]
  have hres : rowG y c.size (c.numNodes + k)
      (c.resistors.flatMap (resistor_stamp c)) = 0 := by
    apply rowG_eq_zero
    intro u hu
    rcases List.mem_flatMap.mp hu with ⟨r, hr, hur⟩
    have := (resistor_stamp_bounds hr u hur).1
    omega
  rw [hres, zero_add, rowG_flatMap]
  have henum : c.voltageSources.enum = List.enumFrom 0 c.voltageSources := rfl
  rw [henum]
  rw [sum_map_enumFrom_single _ c.voltageSources 0 k vs hkvs
    (fun p hp hpk => by
      obtain ⟨kk, vv⟩ := p
      exact vs_stampG_row_other c y
        (mem_voltageSources_sub (List.snd_mem_of_mem_enumFrom hp)) hpk)]
  exact vs_stampG_row_own c y hmemc hkM

/-- Master lemma, constraint rows: the row of the `k`-th voltage source of
`c'`, applied to a reindexed vector, equals the row of the same source in
`c`'s numbering applied to the vector itself. -/
theorem mna_row_vs_of_perm (c c' : Circuit)
    (hperm : c'.components.Perm c.components)
    (href : c'.referenceNode = c.referenceNode)
    (hloop : ∀ vs ∈ c.voltageSources, vs.node1 = vs.node2 → vs.node1 = c.referenceNode)
    (y : ℕ → ℚ) {k' : ℕ} {vs : Component}
    (hkvs : (k', vs) ∈ c'.voltageSources.enum) :
    (∑ j ∈ Finset.range c.size, (build_mna_system c').1 (c.numNodes + k') j
        * y (vsReindex c c' j))
      = ∑ j ∈ Finset.range c.size,
          (build_mna_system c).1 (c.numNodes + c.voltageSources.indexOf vs) j * y j := by
  have hloop' := hloop_of_perm hperm href hloop
  have hN : c'.numNodes = c.numNodes := numNodes_eq_of_perm hperm href
  have hsz : c'.size = c.size := size_eq_of_perm hperm href
  have hvs' : vs ∈ c'.voltageSources := List.snd_mem_of_mem_enumFrom hkvs
  have hvsc : vs ∈ c.voltageSources := (voltageSources_perm_of_perm hperm).mem_iff.mp hvs'
  have hmemc : vs ∈ c.components := mem_voltageSources_sub hvsc
  have hmemc' : vs ∈ c'.components := mem_voltageSources_sub hvs'
  -- right-hand side via the generic constraint-row lemma for `c`
  rw [gStamps_row_vs c hloop y (indexOf_mem_enum hvsc)]
  -- left-hand side via the same lemma for `c'`, then translate
  have hkvs2 : (k', vs) ∈ c'.voltageSources.enum := hkvs
  have hLrow := gStamps_row_vs c' hloop' (fun t => y (vsReindex c c' t)) hkvs2
  rw [hN, hsz] at hLrow
  rw [hLrow, href, nodeIndex_eq_of_perm hperm href]
  -- the KCL indices are below `numNodes`, where the reindex is the identity
  by_cases h1 : vs.node1 ≠ c.referenceNode <;> by_cases h2 : vs.node2 ≠ c.referenceNode
  · rw [if_pos h1, if_pos h1, if_pos h2, if_pos h2]
    beta_reduce
    rw [vsReindex_node (nodeIndex_lt (terminal1_mem_nonRefNodes hmemc h1)),
      vsReindex_node (nodeIndex_lt (terminal2_mem_nonRefNodes hmemc h2))]
  · rw [if_pos h1, if_pos h1, if_neg h2, if_neg h2]
    beta_reduce
    rw [vsReindex_node (nodeIndex_lt (terminal1_mem_nonRefNodes hmemc h1))]
  · rw [if_neg h1, if_neg h1, if_pos h2, if_pos h2]
    beta_reduce
    rw [vsReindex_node (nodeIndex_lt (terminal2_mem_nonRefNodes hmemc h2))]
  · rw [if_neg h1, if_neg h1, if_neg h2, if_neg h2]

/-- Master lemma, right-hand side, KCL rows: only current sources reach
`Z` there, and they are order-insensitive. -/
theorem mna_z_node_of_perm (c c' : Circuit)
    (hperm : c'.components.Perm c.components)
    (href : c'.referenceNode = c.referenceNode)
    (hloop : ∀ vs ∈ c.voltageSources, vs.node1 = vs.node2 → vs.node1 = c.referenceNode)
    {i : ℕ} (hi : i < c.numNodes) :
    (build_mna_system c').2 i = (build_mna_system c).2 i := by
  have hloop' := hloop_of_perm hperm href hloop
  have hN : c'.numNodes = c.numNodes := numNodes_eq_of_perm hperm href
  have hvz : ∀ d : Circuit, ∀ u ∈ d.voltageSources.enum.flatMap (vs_stampZ d),
      d.numNodes ≤ u.1 := by
    intro d u hu
    rcases List.mem_flatMap.mp hu with ⟨p, hp, hup⟩
    simp only [vs_stampZ, List.mem_cons, List.not_mem_nil, or_false] at hup
    subst hup
    simp only
    omega
  have hz1 : sumZ (c'.voltageSources.enum.flatMap (vs_stampZ c')) i = 0 :=
    sumZ_eq_zero (fun u hu => by have := hvz c' u hu; omega)
  have hz2 : sumZ (c.voltageSources.enum.flatMap (vs_stampZ c)) i = 0 :=
    sumZ_eq_zero (fun u hu => by have := hvz c u hu; omega)
  rw [(build_mna_eq_spec c' hloop').2 i, (build_mna_eq_spec c hloop).2 i,
    zStamps, zStamps, sumZ_append, sumZ_append, hz1, hz2, add_zero, add_zero,
    current_stamp_congr hperm href]
  rw [sumZ_perm i ((currentSources_perm_of_perm hperm).flatMap_right _)]

/-- Master lemma, right-hand side, constraint rows: the value of the
voltage source owning the row, on both sides. -/
theorem mna_z_vs_of_perm (c c' : Circuit)
    (hperm : c'.components.Perm c.components)
    (href : c'.referenceNode = c.referenceNode)
    (hloop : ∀ vs ∈ c.voltageSources, vs.node1 = vs.node2 → vs.node1 = c.referenceNode)
    {k' : ℕ} {vs : Component} (hkvs : (k', vs) ∈ c'.voltageSources.enum) :
    (build_mna_system c').2 (c.numNodes + k')
      = (build_mna_system c).2 (c.numNodes + c.voltageSources.indexOf vs) := by
  have hloop' := hloop_of_perm hperm href hloop
  have hN : c'.numNodes = c.numNodes := numNodes_eq_of_perm hperm href
  have hvsc : vs ∈ c.voltageSources :=
    (voltageSources_perm_of_perm hperm).mem_iff.mp (List.snd_mem_of_mem_enumFrom hkvs)
  have hcz : ∀ (d : Circuit) (a : ℕ), d.numNodes ≤ a →
      sumZ (d.currentSources.flatMap (current_stamp d)) a = 0 := by
    intro d a ha
    apply sumZ_eq_zero
    intro u hu
    rcases List.mem_flatMap.mp hu with ⟨cs, hcs, hucs⟩
    have := current_stamp_bounds hcs u hucs
    omega
  rw [(build_mna_eq_spec c' hloop').2, (build_mna_eq_spec c hloop).2,
    zStamps, zStamps, sumZ_append, sumZ_append,
    hcz c' _ (by omega), hcz c _ (by omega), zero_add, zero_add]
  have h1 : sumZ ((List.enumFrom 0 c'.voltageSources).flatMap (vs_stampZ c'))
      (c'.numNodes + k') = vs.value := sumZ_vs_enumFrom c' c'.voltageSources 0 k' vs hkvs
  rw [hN] at h1
  have h2 : sumZ ((List.enumFrom 0 c.voltageSources).flatMap (vs_stampZ c))
      (c.numNodes + c.voltageSources.indexOf vs) = vs.value :=
    sumZ_vs_enumFrom c c.voltageSources 0 _ vs (indexOf_mem_enum hvsc)
  have henum' : c'.voltageSources.enum = List.enumFrom 0 c'.voltageSources := rfl
  have henum : c.voltageSources.enum = List.enumFrom 0 c.voltageSources := rfl
  rw [henum', henum, h1, h2]

theorem getElem_mem_enum {α : Type} (l : List α) {k : ℕ} (hk : k < l.length) :
    (k, l[k]) ∈ l.enum := by
  have hlen : k < l.enum.length := by
    rw [List.enum_length]
    exact hk
  have hval : l.enum[k] = (k, l[k]) := List.getElem_enum l k hlen
  exact hval ▸ l.enum.getElem_mem hlen

/-- The reindexing map is onto the index range of `c`'s system. -/
theorem vsReindex_surj (c c' : Circuit)
    (hperm : c'.components.Perm c.components)
    (href : c'.referenceNode = c.referenceNode)
    (hids : (c.components.map (fun comp => comp.id)).Nodup)
    {t : ℕ} (ht : t < c.size) : ∃ s, s < c.size ∧ vsReindex c c' s = t := by
  have hM : c'.numVS = c.numVS := numVS_eq_of_perm hperm
  by_cases htN : t < c.numNodes
  · exact ⟨t, by rw [Circuit.size]; omega, vsReindex_node htN⟩
  · have hk : t - c.numNodes < c.voltageSources.length := by
      rw [Circuit.size] at ht
      have h1 : c.voltageSources.length = c.numVS := rfl
      omega
    have hamem : c.voltageSources[t - c.numNodes] ∈ c.voltageSources :=
      c.voltageSources.getElem_mem hk
    have hamem' : c.voltageSources[t - c.numNodes] ∈ c'.voltageSources :=
      (voltageSources_perm_of_perm hperm).mem_iff.mpr hamem
    have hk' : c'.voltageSources.indexOf (c.voltageSources[t - c.numNodes])
        < c'.voltageSources.length := List.indexOf_lt_length.mpr hamem'
    refine ⟨c.numNodes + c'.voltageSources.indexOf (c.voltageSources[t - c.numNodes]),
      ?_, ?_⟩
    · rw [Circuit.size]
      have h1 : c'.voltageSources.length = c'.numVS := rfl
      omega
    · rw [vsReindex, if_neg (by omega), Nat.add_sub_cancel_left,
        List.getD_eq_getElem _ _ hk', List.getElem_indexOf hk']
      have hnd : c.voltageSources.Nodup := (List.Nodup.of_map _ hids).filter _
      have hidx : c.voltageSources.indexOf (c.voltageSources[t - c.numNodes])
          < c.voltageSources.length := List.indexOf_lt_length.mpr hamem
      have heq : c.voltageSources.indexOf (c.voltageSources[t - c.numNodes])
          = t - c.numNodes :=
        (hnd.getElem_inj_iff).mp (List.getElem_indexOf hidx)
      omega

/-- Nonsingularity survives reordering: a kernel vector of the permuted
system transports back to a kernel vector of the original one. -/
theorem det_ne_zero_of_perm (c c' : Circuit)
    (hperm : c'.components.Perm c.components)
    (href : c'.referenceNode = c.referenceNode)
    (hloop : ∀ vs ∈ c.voltageSources, vs.node1 = vs.node2 → vs.node1 = c.referenceNode)
    (hids : (c.components.map (fun comp => comp.id)).Nodup)
    (hdet : (GMat c).det ≠ 0) : (GMat c').det ≠ 0 := by
  intro h0
  obtain ⟨w, hw0, hker⟩ := Matrix.exists_mulVec_eq_zero_iff.mpr h0
  have hloop' := hloop_of_perm hperm href hloop
  have hids' : (c'.components.map (fun comp => comp.id)).Nodup :=
    ((hperm.map _).nodup_iff).mpr hids
  have hN : c'.numNodes = c.numNodes := numNodes_eq_of_perm hperm href
  have hM : c'.numVS = c.numVS := numVS_eq_of_perm hperm
  have hsz : c'.size = c.size := size_eq_of_perm hperm href
  set wf : ℕ → ℚ := fun t => if h : t < c'.size then w ⟨t, h⟩ else 0 with hwf
  have hkerrow : ∀ i : ℕ, i < c'.size →
      (∑ j ∈ Finset.range c'.size, (build_mna_system c').1 i j * wf j) = 0 := by
    intro i hi
    have hdot := congrFun hker ⟨i, hi⟩
    simp only [Matrix.mulVec, Matrix.dotProduct, Pi.zero_apply] at hdot
    calc (∑ j ∈ Finset.range c'.size, (build_mna_system c').1 i j * wf j)
        = ∑ j : Fin c'.size, (build_mna_system c').1 i ↑j * wf ↑j :=
          (Fin.sum_univ_eq_sum_range
            (fun j => (build_mna_system c').1 i j * wf j) c'.size).symm
      _ = ∑ j : Fin c'.size, GMat c' ⟨i, hi⟩ j * w j := by
          refine Finset.sum_congr rfl fun j _ => ?_
          rw [hwf]
          simp only [GMat]
          rw [dif_pos j.isLt]
      _ = 0 := hdot
  have hvrow : ∀ i : ℕ, i < c.size →
      (∑ j ∈ Finset.range c.size, (build_mna_system c).1 i j * wf (vsReindex c' c j)) = 0 := by
    intro i hi
    rw [← hsz] at hi ⊢
    by_cases hiN : i < c'.numNodes
    · rw [mna_row_node_of_perm c' c hperm.symm href.symm hloop' hids' wf hiN]
      exact hkerrow i hi
    · obtain ⟨k, hk⟩ : ∃ k, i = c'.numNodes + k := ⟨i - c'.numNodes, by omega⟩
      subst hk
      have hkM : k < c.voltageSources.length := by
        rw [Circuit.size] at hi
        have h1 : c.voltageSources.length = c.numVS := rfl
        omega
      have hpair : (k, c.voltageSources[k]) ∈ c.voltageSources.enum :=
        getElem_mem_enum c.voltageSources hkM
      rw [mna_row_vs_of_perm c' c hperm.symm href.symm hloop' wf hpair]
      have hmem' : c.voltageSources[k] ∈ c'.voltageSources :=
        (voltageSources_perm_of_perm hperm).mem_iff.mpr (c.voltageSources.getElem_mem hkM)
      have hidx : c'.voltageSources.indexOf (c.voltageSources[k])
          < c'.voltageSources.length := List.indexOf_lt_length.mpr hmem'
      apply hkerrow
      rw [Circuit.size]
      have h1 : c'.voltageSources.length = c'.numVS := rfl
      omega
  have hvmul : (GMat c).mulVec (fun i => wf (vsReindex c' c i)) = 0 := by
    funext i
    have hrow := hvrow i i.isLt
    simp only [Matrix.mulVec, Matrix.dotProduct, Pi.zero_apply]
    calc (∑ j : Fin c.size, GMat c i j * wf (vsReindex c' c ↑j))
        = ∑ j ∈ Finset.range c.size, (build_mna_system c).1 i j * wf (vsReindex c' c j) := by
          rw [← Fin.sum_univ_eq_sum_range
            (fun j => (build_mna_system c).1 i j * wf (vsReindex c' c j)) c.size]
          exact Finset.sum_congr rfl fun j _ => rfl
      _ = 0 := hrow
  have hvne : (fun i : Fin c.size => wf (vsReindex c' c i)) ≠ 0 := by
    obtain ⟨t, ht⟩ := Function.ne_iff.mp hw0
    obtain ⟨s, hs, hst⟩ := vsReindex_surj c' c hperm.symm href.symm hids' t.isLt
    intro hzero
    have hsc : s < c.size := by
      rw [hsz] at hs
      exact hs
    have h1 := congrFun hzero ⟨s, hsc⟩
    simp only [Pi.zero_apply] at h1
    rw [show vsReindex c' c ((⟨s, hsc⟩ : Fin c.size) : ℕ) = (t : ℕ) from hst] at h1
    have h2 : wf ↑t = w t := by
      rw [hwf]
      exact dif_pos t.isLt
    exact ht (h2.symm.trans h1)
  exact hdet (Matrix.exists_mulVec_eq_zero_iff.mp
    ⟨fun i => wf (vsReindex c' c i), hvne, hvmul⟩)

/-- C6: reordering invariance.  For a valid circuit (unique component ids,
no voltage-source self-loop away from the reference) that solves
successfully, solving any permutation of its component list (with the same
reference node) also succeeds, and yields the identical node-voltage list,
a permutation of the per-component results (each component getting exactly
the same voltage, current and power), and the identical total power — exact
equality, hence in particular agreement within `10⁻⁹`. -/
theorem C6_reordering_invariance (c c' : Circuit) (sol : Solution)
    (hids : (c.components.map (fun comp => comp.id)).Nodup)
    (hloop : ∀ vs ∈ c.voltageSources, vs.node1 = vs.node2 → vs.node1 = c.referenceNode)
    (hperm : c'.components.Perm c.components)
    (href : c'.referenceNode = c.referenceNode)
    (hsol : solve c = .success sol) :
    ∃ sol', solve c' = .success sol'
      ∧ sol'.voltages = sol.voltages
      ∧ sol'.components.Perm sol.components
      ∧ sol'.total_power = sol.total_power := by
  rw [solve] at hsol
  split at hsol
  · exact absurd hsol (by simp)
  · rename_i hres
    split at hsol
    · exact absurd hsol (by simp)
    · rename_i X hlin
      rw [SolveResponse.success.injEq] at hsol
      subst hsol
      set x : ℕ → ℚ := fun i => if h : i < c.size then X ⟨i, h⟩ else 0 with hx
      have hmul := linSolve_sound hlin
      have hdetQ : ¬ detQ (GMat c) = 0 := by
        intro hdq
        rw [linSolve, if_pos hdq] at hlin
        exact absurd hlin (by simp)
      have hdet : (GMat c).det ≠ 0 := by
        rw [← detQ_eq_det]
        exact hdetQ
      have hloop' := hloop_of_perm hperm href hloop
      have hids' : (c'.components.map (fun comp => comp.id)).Nodup :=
        ((hperm.map _).nodup_iff).mpr hids
      have hN := numNodes_eq_of_perm hperm href
      have hM := numVS_eq_of_perm hperm
      have hsz := size_eq_of_perm hperm href
      have hnr := nonRefNodes_eq_of_perm hperm href
      have hidsVS : (c.voltageSources.map (fun comp => comp.id)).Nodup :=
        List.Nodup.sublist ((List.filter_sublist _).map _) hids
      have hidsVS' : (c'.voltageSources.map (fun comp => comp.id)).Nodup :=
        List.Nodup.sublist ((List.filter_sublist _).map _) hids'
      -- the rows of the original system
      have hrow : ∀ i, i < c.size →
          (∑ j ∈ Finset.range c.size, (build_mna_system c).1 i j * x j)
            = (build_mna_system c).2 i := by
        intro i hi
        have hdot := congrFun hmul ⟨i, hi⟩
        simp only [Matrix.mulVec, Matrix.dotProduct] at hdot
        calc (∑ j ∈ Finset.range c.size, (build_mna_system c).1 i j * x j)
            = ∑ j : Fin c.size, (build_mna_system c).1 i ↑j * x ↑j :=
              (Fin.sum_univ_eq_sum_range (fun j => (build_mna_system c).1 i j * x j)
                c.size).symm
          _ = ∑ j : Fin c.size, GMat c ⟨i, hi⟩ j * X j := by
              refine Finset.sum_congr rfl fun j _ => ?_
              rw [hx]
              simp only [GMat]
              rw [dif_pos j.isLt]
          _ = (build_mna_system c).2 i := hdot
      -- the rows of the permuted system, on the transported assignment
      have hVrow : ∀ i : ℕ, i < c'.size →
          (∑ j ∈ Finset.range c'.size, (build_mna_system c').1 i j * x (vsReindex c c' j))
            = (build_mna_system c').2 i := by
        intro i hi
        rw [hsz] at hi ⊢
        by_cases hiN : i < c.numNodes
        · rw [mna_row_node_of_perm c c' hperm href hloop hids x hiN, hrow i hi,
            mna_z_node_of_perm c c' hperm href hloop hiN]
        · obtain ⟨k', hk'⟩ : ∃ k', i = c.numNodes + k' := ⟨i - c.numNodes, by omega⟩
          subst hk'
          have hk'len : k' < c'.voltageSources.length := by
            rw [Circuit.size] at hi
            have h1 : c'.voltageSources.length = c'.numVS := rfl
            omega
          have hpair : (k', c'.voltageSources[k']) ∈ c'.voltageSources.enum :=
            getElem_mem_enum c'.voltageSources hk'len
          have hvmem : c'.voltageSources[k'] ∈ c.voltageSources :=
            (voltageSources_perm_of_perm hperm).mem_iff.mp
              (c'.voltageSources.getElem_mem hk'len)
          have hidxlt : c.voltageSources.indexOf (c'.voltageSources[k'])
              < c.voltageSources.length := List.indexOf_lt_length.mpr hvmem
          rw [mna_row_vs_of_perm c c' hperm href hloop x hpair,
            hrow _ (by
              rw [Circuit.size]
              have h1 : c.voltageSources.length = c.numVS := rfl
              omega),
            mna_z_vs_of_perm c c' hperm href hloop hpair]
      have hdet' : (GMat c').det ≠ 0 := det_ne_zero_of_perm c c' hperm href hloop hids hdet
      have hdetQ' : ¬ detQ (GMat c') = 0 := by
        rw [detQ_eq_det]
        exact hdet'
      have hlin' : linSolve (GMat c') (ZVec c')
          = some ((detQ (GMat c'))⁻¹ • (adjQ (GMat c')).mulVec (ZVec c')) := by
        rw [linSolve, if_neg hdetQ']
      have hmul' := linSolve_sound hlin'
      have hVmul : (GMat c').mulVec (fun i : Fin c'.size => x (vsReindex c c' ↑i)) = ZVec c' := by
        funext i
        have hrw := hVrow i i.isLt
        simp only [Matrix.mulVec, Matrix.dotProduct]
        calc (∑ j : Fin c'.size, GMat c' i j * x (vsReindex c c' ↑j))
            = ∑ j ∈ Finset.range c'.size,
                (build_mna_system c').1 i j * x (vsReindex c c' j) := by
              rw [← Fin.sum_univ_eq_sum_range
                (fun j => (build_mna_system c').1 i j * x (vsReindex c c' j)) c'.size]
              exact Finset.sum_congr rfl fun j _ => rfl
          _ = (build_mna_system c').2 i := hrw
          _ = ZVec c' i := rfl
      have hXV : ((detQ (GMat c'))⁻¹ • (adjQ (GMat c')).mulVec (ZVec c'))
          = fun i : Fin c'.size => x (vsReindex c c' ↑i) :=
        mulVec_injective_of_det_ne_zero hdet' (hmul'.trans hVmul.symm)
      have hguard' : ¬ (c'.resistors.any fun r => decide (r.value = 0)) = true := by
        rw [perm_any _ (resistors_perm_of_perm hperm)]
        exact hres
      have hsolve' : solve c'
          = .success (package_solution c' (fun i =>
              if h : i < c'.size then
                ((detQ (GMat c'))⁻¹ • (adjQ (GMat c')).mulVec (ZVec c')) ⟨i, h⟩
              else 0)) := by
        rw [solve, if_neg hguard', hlin']
      set x' : ℕ → ℚ := fun i =>
          if h : i < c'.size then
            ((detQ (GMat c'))⁻¹ • (adjQ (GMat c')).mulVec (ZVec c')) ⟨i, h⟩
          else 0 with hx'
      have hx'eq : ∀ i, i < c'.size → x' i = x (vsReindex c c' i) := by
        intro i hi
        have h1 : x' i = ((detQ (GMat c'))⁻¹ • (adjQ (GMat c')).mulVec (ZVec c')) ⟨i, hi⟩ := by
          rw [hx']
          exact dif_pos hi
        rw [h1, hXV]
      -- the published voltages lists coincide
      have hlist : ((c'.referenceNode, (0 : ℚ))
            :: c'.nonRefNodes.enum.map (fun p => (p.2, x' p.1)))
          = ((c.referenceNode, (0 : ℚ))
            :: c.nonRefNodes.enum.map (fun p => (p.2, x p.1))) := by
        rw [href, hnr]
        congr 1
        refine List.map_congr_left fun p hp => ?_
        have hpN : p.1 < c.numNodes := by
          have h1 := (List.mem_enumFrom hp).2.1
          rw [Circuit.numNodes]
          omega
        have h2 : x' p.1 = x p.1 := by
          rw [hx'eq p.1 (by rw [hsz, Circuit.size]; omega), vsReindex_node hpN]
        rw [h2]
      -- each component is reported identically
      have hcompeq : ∀ comp ∈ c'.components,
          calculate_component_result c'
            ((c'.referenceNode, 0) :: c'.nonRefNodes.enum.map (fun p => (p.2, x' p.1)))
            (fun k => x' (c'.numNodes + k)) comp
          = calculate_component_result c
            ((c.referenceNode, 0) :: c.nonRefNodes.enum.map (fun p => (p.2, x p.1)))
            (fun k => x (c.numNodes + k)) comp := by
        intro comp hcm
        cases hk : comp.kind
        case resistor => simp only [calculate_component_result, hk, hlist]
        case currentSource => simp only [calculate_component_result, hk, hlist]
        case voltageSource =>
          have hcm' : comp ∈ c'.voltageSources := by
            rw [Circuit.voltageSources, List.mem_filter]
            exact ⟨hcm, by simp [hk]⟩
          have hcmc : comp ∈ c.voltageSources :=
            (voltageSources_perm_of_perm hperm).mem_iff.mp hcm'
          have hfind' : c'.voltageSources.enum.find? (fun p => decide (p.2.id = comp.id))
              = some (c'.voltageSources.indexOf comp, comp) :=
            find_enumFrom_by_id c'.voltageSources 0 _ comp hidsVS' (indexOf_mem_enum hcm')
          have hfind : c.voltageSources.enum.find? (fun p => decide (p.2.id = comp.id))
              = some (c.voltageSources.indexOf comp, comp) :=
            find_enumFrom_by_id c.voltageSources 0 _ comp hidsVS (indexOf_mem_enum hcmc)
          have hidx' : c'.voltageSources.indexOf comp < c'.voltageSources.length :=
            List.indexOf_lt_length.mpr hcm'
          have hcur : x' (c'.numNodes + c'.voltageSources.indexOf comp)
              = x (c.numNodes + c.voltageSources.indexOf comp) := by
            rw [hN, hx'eq _ (by
                rw [hsz, Circuit.size]
                have h1 : c'.voltageSources.length = c'.numVS := rfl
                omega),
              vsReindex_getD (indexOf_mem_enum hcm')]
          simp only [calculate_component_result, hk, hlist, hfind', hfind, hcur]
      have hmapeq : (package_solution c' x').components
          = c'.components.map (calculate_component_result c
              ((c.referenceNode, 0) :: c.nonRefNodes.enum.map (fun p => (p.2, x p.1)))
              (fun k => x (c.numNodes + k))) := by
        have h0 : (package_solution c' x').components
            = c'.components.map (calculate_component_result c'
                ((c'.referenceNode, 0) :: c'.nonRefNodes.enum.map (fun p => (p.2, x' p.1)))
                (fun k => x' (c'.numNodes + k))) := rfl
        rw [h0]
        exact List.map_congr_left hcompeq
      refine ⟨package_solution c' x', hsolve', ?_, ?_, ?_⟩
      · have h1 : (package_solution c' x').voltages
            = (c'.referenceNode, 0) :: c'.nonRefNodes.enum.map (fun p => (p.2, x' p.1)) := rfl
        have h2 : (package_solution c x).voltages
            = (c.referenceNode, 0) :: c.nonRefNodes.enum.map (fun p => (p.2, x p.1)) := rfl
        rw [h1, h2]
        exact hlist
      · have h2 : (package_solution c x).components
            = c.components.map (calculate_component_result c
                ((c.referenceNode, 0) :: c.nonRefNodes.enum.map (fun p => (p.2, x p.1)))
                (fun k => x (c.numNodes + k))) := rfl
        rw [hmapeq, h2]
        exact hperm.map _
      · have h1 : (package_solution c' x').total_power
            = ((package_solution c' x').components.map (fun r => r.power)).sum := rfl
        have h2 : (package_solution c x).total_power
            = ((package_solution c x).components.map (fun r => r.power)).sum := rfl
        have h3 : (package_solution c x).components
            = c.components.map (calculate_component_result c
                ((c.referenceNode, 0) :: c.nonRefNodes.enum.map (fun p => (p.2, x p.1)))
                (fun k => x (c.numNodes + k))) := rfl
        rw [h1, h2, hmapeq, h3]
        exact ((hperm.map _).map _).sum_eq

/-- C6: witness.  Swapping the two components of the `VS(5,1,0)` /
`CS(2,1,0)` circuit still solves, with the same voltages and total power
and a permutation of the per-component results. -/
theorem C6_witness :
    vsCsSwapped.components.Perm vsCsCircuit.components
      ∧ ∃ sol', solve vsCsSwapped = .success sol'
        ∧ sol'.voltages = (package_solution vsCsCircuit (fun i =>
            if h : i < vsCsCircuit.size then
              ((detQ (GMat vsCsCircuit))⁻¹
                • (adjQ (GMat vsCsCircuit)).mulVec (ZVec vsCsCircuit)) ⟨i, h⟩
            else 0)).voltages
        ∧ sol'.components.Perm (package_solution vsCsCircuit (fun i =>
            if h : i < vsCsCircuit.size then
              ((detQ (GMat vsCsCircuit))⁻¹
                • (adjQ (GMat vsCsCircuit)).mulVec (ZVec vsCsCircuit)) ⟨i, h⟩
            else 0)).components
        ∧ sol'.total_power = (package_solution vsCsCircuit (fun i =>
            if h : i < vsCsCircuit.size then
              ((detQ (GMat vsCsCircuit))⁻¹
                • (adjQ (GMat vsCsCircuit)).mulVec (ZVec vsCsCircuit)) ⟨i, h⟩
            else 0)).total_power := by
  have hdet : ¬ detQ (GMat vsCsCircuit) = 0 := by
    have hGm : GMat vsCsCircuit = !![0, 1; 1, 0] := by decide
    rw [detQ_eq_det, hGm, Matrix.det_fin_two_of]
    norm_num
  have hsol : solve vsCsCircuit = .success (package_solution vsCsCircuit (fun i =>
      if h : i < vsCsCircuit.size then
        ((detQ (GMat vsCsCircuit))⁻¹
          • (adjQ (GMat vsCsCircuit)).mulVec (ZVec vsCsCircuit)) ⟨i, h⟩
      else 0)) := by
    rw [solve, if_neg (by decide), linSolve, if_neg hdet]
  exact ⟨List.Perm.swap _ _ _,
    C6_reordering_invariance vsCsCircuit vsCsSwapped _ (by decide) (by decide)
      (List.Perm.swap _ _ _) rfl hsol⟩

end Tapece
